import Mathlib

/-!
The package `enumconf`: enumeration of configuration file paths.

A shallow embedding of `enumconf.go` (package `enumconf`) together with the
parts of the Go standard library it calls (`path/filepath`, `io/fs`, `os`,
Unix semantics), and the verification of its specification.

Conventions of the embedding:

* Go strings are Lean `String`s; the path functions work on the character
  lists `String.data`.
* A Go `[]string` is a `Slice`: `none` is the nil slice, `some l` a non-nil
  slice holding `l`.
* An `fs.FS` interface value is `Option FS`: `none` is the nil interface, and a
  non-nil one is given by the outcome of `fs.Stat` on it for each name, which can
  be that the call does not return or that it returns no file information.
* A function that can panic returns `Except Panic _`.
* The ambient state read by the package (the compiled-in list
  `systemConfigs`, `os.UserConfigDir()`, `os.Getwd()`) is an `Env`.
-/

namespace Enumconf

/-! ## `path/filepath` (Unix: the separator is `/`, there is no volume name) -/

namespace filepath

/-- Puts a character in front of the first of a list of path elements. -/
def pushChar (c : Char) : List (List Char) → List (List Char)
  | [] => [[c]]
  | e :: es => (c :: e) :: es

/-- The path elements of a character list: the pieces between separators. -/
def splitSep : List Char → List (List Char)
  | [] => [[]]
  | c :: cs => if c = '/' then [] :: splitSep cs else pushChar c (splitSep cs)

/-- The output buffer of `Clean` (the written part of its `lazybuf`) and the
index `dotdot` below which a `..` element must not backtrack. -/
structure CleanState where
  out : List Char
  dotdot : Nat
  deriving DecidableEq, Repr

/-- The inner loop of the `..` case of `Clean`, entered after `out.w--` with
`w = out.w`: `for out.w > dotdot && !os.IsPathSeparator(out.index(out.w)) { out.w-- }`.
Returns the final `out.w`. -/
def backtrack (buf : List Char) (dotdot : Nat) : Nat → Nat
  | 0 => 0
  | w + 1 =>
    if w + 1 > dotdot ∧ buf.get? (w + 1) ≠ some '/' then backtrack buf dotdot w
    else w + 1

/-- One round of the main loop of `Clean`, on the path element `e` that
starts at the read index: the empty element (a separator is skipped), the
`.` element, the `..` element, or a real path element. -/
def cleanStep (rooted : Bool) (st : CleanState) (e : List Char) : CleanState :=
  if e = [] then st
  else if e = ['.'] then st
  else if e = ['.', '.'] then
    if st.out.length > st.dotdot then
      -- can backtrack
      { st with out := st.out.take (backtrack st.out st.dotdot (st.out.length - 1)) }
    else if !rooted then
      -- cannot backtrack, but not rooted, so append .. element
      let out := (if st.out.length > 0 then st.out ++ ['/'] else st.out) ++ ['.', '.']
      { out := out, dotdot := out.length }
    else st
  else
    -- real path element: add slash if needed, copy element
    let out :=
      if (rooted && st.out.length != 1) || (!rooted && st.out.length != 0) then st.out ++ ['/']
      else st.out
    { st with out := out ++ e }

/-- The function `filepath.Clean` on character lists. -/
def cleanChars (path : List Char) : List Char :=
  if path = [] then ['.']
  else
    let rooted : Bool := path.head? = some '/'
    let init : CleanState := if rooted then ⟨['/'], 1⟩ else ⟨[], 0⟩
    let rest := if rooted then path.tail else path
    let st := (splitSep rest).foldl (cleanStep rooted) init
    -- Turn empty string into "."
    if st.out.length = 0 then ['.'] else st.out

/-- Go `filepath.Clean`: the shortest path name equivalent to `path` by purely
lexical processing. -/
def Clean (path : String) : String := ⟨cleanChars path.data⟩

/-- The part of `path` up to and including its last separator, which is what
the scan `for i >= 0 && !os.IsPathSeparator(path[i]) { i-- }` of `Dir` keeps
as `path[:i+1]`. -/
def dirPart (path : List Char) : List Char :=
  (path.reverse.dropWhile (fun c => c != '/')).reverse

/-- Go `filepath.Dir`: all but the last element of `path`, cleaned. -/
def Dir (path : String) : String := Clean ⟨dirPart path.data⟩

/-- Go `strings.Join(elems, "/")`. -/
def joinSep : List String → String
  | [] => ""
  | [a] => a
  | a :: rest => a ++ "/" ++ joinSep rest

/-- Go `filepath.Join`: leading empty elements are ignored, the remaining ones
are joined with the separator (empty ones included) and the result is cleaned;
with no non-empty element the result is the empty string. -/
def Join : List String → String
  | [] => ""
  | e :: rest => if e ≠ "" then Clean (joinSep (e :: rest)) else Join rest

end filepath

/-! ## `io/fs` and `os` -/

/-- The file type recorded in a Go `fs.FileMode`: a regular file (no type
bit set), or one of the type bits `ModeDir`, `ModeSymlink`, `ModeNamedPipe`,
`ModeSocket`, `ModeDevice`, `ModeCharDevice`, `ModeIrregular`. -/
inductive FileMode
  | regular
  | dir
  | symlink
  | namedPipe
  | socket
  | device
  | charDevice
  | irregular
  deriving DecidableEq, Repr

/-- Go `FileMode.IsRegular`. -/
def FileMode.IsRegular (m : FileMode) : Bool := decide (m = FileMode.regular)

/-- The part of a Go `fs.FileInfo` that the package looks at. -/
structure FileInfo where
  Mode : FileMode
  deriving DecidableEq, Repr

/-- Go `FileInfo.IsDir`, the abbreviation for `Mode().IsDir()`. -/
def FileInfo.IsDir (info : FileInfo) : Bool := decide (info.Mode = FileMode.dir)

/-- The errors a filesystem probe can report. -/
inductive FsError
  | notExist
  | permission
  | invalid
  | other
  deriving DecidableEq, Repr

/-- The ways a call can fail to return: the run-time panic of a method call on
a nil interface, a recursion that exceeds the bound the model puts on its
depth, and a call into the code of a filesystem that panics or never returns. -/
inductive Panic
  | nilDereference
  | stackOverflow
  | inFilesystem
  deriving DecidableEq, Repr

/-- A non-nil `fs.FS` value, given by what `fs.Stat` yields on it for each
name: nothing (`none`) when the call into the code of the filesystem panics or
never returns, and else an error, or no error together with the file
information, which a filesystem can leave nil (`none`). -/
structure FS where
  Stat : String → Option (Except FsError (Option FileInfo))

namespace iofs

/-- Go `fs.ValidPath` on a string of valid UTF-8: the name is `.` or every
one of its slash-separated elements is neither empty nor `.` nor `..`. -/
def ValidPath (name : String) : Bool :=
  if name = "." then true
  else (filepath.splitSep name.data).all (fun e => e ≠ [] ∧ e ≠ ['.'] ∧ e ≠ ['.', '.'])

/-- Go `fs.Stat(fsys, name)`: calls a method of `fsys`, which panics when
`fsys` is the nil interface. -/
def Stat (fsys : Option FS) (name : String) :
    Except Panic (Except FsError (Option FileInfo)) :=
  match fsys with
  | none => Except.error Panic.nilDereference
  | some f =>
    match f.Stat name with
    | none => Except.error Panic.inFilesystem
    | some r => Except.ok r

end iofs

namespace os

/-- The answer of `os.Stat` as an answer of a filesystem: `os.Stat` returns,
with a file information that is not nil whenever it returns no error. -/
def statInfo (r : Except FsError FileInfo) : Option (Except FsError (Option FileInfo)) :=
  match r with
  | Except.error e => some (Except.error e)
  | Except.ok info => some (Except.ok (some info))

/-- Go `os.DirFS(dir)` over an operating system whose `os.Stat` is `osStat`:
a name that is not a valid `fs.FS` path (in particular every rooted name) or
holds a NUL byte is rejected with `ErrInvalid`; a valid name is looked up
below `dir`. -/
def DirFS (osStat : String → Except FsError FileInfo) (dir : String) : FS where
  Stat := fun name =>
    if dir = "" then some (Except.error FsError.other)
    else if !iofs.ValidPath name then some (Except.error FsError.invalid)
    else if name.data.contains (Char.ofNat 0) then some (Except.error FsError.invalid)
    else if dir.data.getLast? = some '/' then statInfo (osStat (dir ++ name))
    else statInfo (osStat (dir ++ "/" ++ name))

end os

/-- What the package reads from its surroundings at call time: the
compiled-in list `systemConfigs` (declared in a platform file), the result of
`os.UserConfigDir()` and the result of `os.Getwd()` (`none`: `err != nil`). -/
structure Env where
  systemConfigs : List String
  UserConfigDir : Option String
  Getwd : Option String

/-- Equality of results is decidable. -/
instance instDecidableEqExcept {ε α : Type} [DecidableEq ε] [DecidableEq α] :
    DecidableEq (Except ε α)
  | Except.ok a, Except.ok b =>
    if h : a = b then isTrue (by rw [h]) else isFalse (fun h2 => h (Except.ok.inj h2))
  | Except.error a, Except.error b =>
    if h : a = b then isTrue (by rw [h]) else isFalse (fun h2 => h (Except.error.inj h2))
  | Except.ok _, Except.error _ => isFalse (fun h => Except.noConfusion h)
  | Except.error _, Except.ok _ => isFalse (fun h => Except.noConfusion h)

/-! ## Slices -/

/-- A Go `[]string`: `none` is the nil slice. -/
abbrev Slice := Option (List String)

/-- The elements of a slice. -/
def Slice.toList : Slice → List String
  | none => []
  | some l => l

/-- Go `append(files, name)`: the result is never nil. -/
def Slice.append (files : Slice) (name : String) : Slice :=
  some (files.toList ++ [name])

/-! ## `enumconf.go` -/

/-- Options contains the enumeration options for config files. -/
structure Options where
  appName : String
  configName : String
  configNameInPath : String
  includeMissing : Bool
  fs : Option FS

/-- Create a new config file enumerator for the provided app name. The
constant `root` is declared in a platform file and is a parameter here, as is
the operating system below `os.DirFS`. -/
def New (root : String) (osStat : String → Except FsError FileInfo) (appName : String) :
    Options where
  appName := appName
  configName := appName ++ ".conf"
  configNameInPath := "." ++ appName
  includeMissing := false
  fs := some (os.DirFS osStat root)

/-- ConfigName overrides the default config file name of appName.conf. -/
def Options.ConfigName (o : Options) (configName : String) : Options :=
  { o with configName := configName }

/-- ConfigNameInPath overrides the default in-path config file name of .appName. -/
def Options.ConfigNameInPath (o : Options) (configName : String) : Options :=
  { o with configNameInPath := configName }

/-- IncludeMissing defines if missing files should still be present in the
config file list. -/
def Options.IncludeMissing (o : Options) (incl : Bool) : Options :=
  { o with includeMissing := incl }

/-- FS overrides the default file system. -/
def Options.FS (o : Options) (fs : Option FS) : Options :=
  { o with fs := fs }

/-- The method `appendIfFile`. With no error from the probe the condition
`err != nil || info.IsDir()` calls `IsDir` on the file information, which
panics when that is nil. -/
def Options.appendIfFile (o : Options) (files : Slice) (name : String) : Except Panic Slice :=
  if !o.includeMissing then
    match iofs.Stat o.fs name with
    | Except.error p => Except.error p
    | Except.ok (Except.error _) => Except.ok files
    | Except.ok (Except.ok none) => Except.error Panic.nilDereference
    | Except.ok (Except.ok (some info)) =>
      if info.IsDir then Except.ok files else Except.ok (files.append name)
  else Except.ok (files.append name)

/-- The method `appendSystem`. -/
def Options.appendSystem (o : Options) (env : Env) (files : Slice) : Except Panic Slice :=
  env.systemConfigs.foldlM
    (fun files s => o.appendIfFile files (filepath.Join [s, o.appName, o.configName])) files

/-- EnumerateSystem generates a list of system config files. May be nil or empty. -/
def Options.EnumerateSystem (o : Options) (env : Env) : Except Panic Slice :=
  o.appendSystem env none

/-- The method `appendUser`. -/
def Options.appendUser (o : Options) (env : Env) (files : Slice) : Except Panic Slice :=
  match env.UserConfigDir with
  | none => Except.ok files
  | some d => o.appendIfFile files (filepath.Join [d, o.appName, o.configName])

/-- EnumerateUser generates a list of user config files. May be nil or empty. -/
def Options.EnumerateUser (o : Options) (env : Env) : Except Panic Slice :=
  o.appendUser env none

/-- The method `appendPathFromRoot`, with a bound on the depth of its
recursion: a call that would exceed the bound ends in `Panic.stackOverflow`. -/
def Options.appendPathFromRootFuel (o : Options) :
    Nat → Slice → String → Except Panic Slice
  | 0, _, _ => Except.error Panic.stackOverflow
  | fuel + 1, files, path =>
    let parent := filepath.Dir path
    (if parent ≠ path then o.appendPathFromRootFuel fuel files parent else Except.ok files)
      >>= fun files => o.appendIfFile files (filepath.Join [path, o.configNameInPath])

/-- The method `appendPathFromRoot`. The bound `path.length + 2` is never
reached (`appendPathFromRoot_unfold` below: the function satisfies the
recursive equation of the source for every path). -/
def Options.appendPathFromRoot (o : Options) (files : Slice) (path : String) :
    Except Panic Slice :=
  o.appendPathFromRootFuel (path.length + 2) files path

/-- The method `appendPath`. -/
def Options.appendPath (o : Options) (env : Env) (files : Slice) : Except Panic Slice :=
  match env.Getwd with
  | none => Except.ok files
  | some path => o.appendPathFromRoot files path

/-- EnumeratePath generates a list of config files in the current working dir
or its parents. May be nil or empty. -/
def Options.EnumeratePath (o : Options) (env : Env) : Except Panic Slice :=
  o.appendPath env none

/-- Enumerate generates a list of config files present in the system. It is
ordered system config files, user config files, path config from root to the
current working directory. -/
def Options.Enumerate (o : Options) (env : Env) : Except Panic Slice :=
  o.appendSystem env none >>= fun files =>
  o.appendUser env files >>= fun files =>
  o.appendPath env files

/-! ## Notions of the specification -/

/-- The probe of the existence policy on a filesystem: the path exists (the
probe reports no error and gives the file information) and is not a directory. -/
def probeOk (fsys : FS) (name : String) : Bool :=
  match fsys.Stat name with
  | some (Except.ok (some info)) => !info.IsDir
  | _ => false

/-- The filesystem answers the probe of `name`: the call returns, with an
error or with a file information that is not nil. -/
def FS.answers (fsys : FS) (name : String) : Bool :=
  match fsys.Stat name with
  | some (Except.error _) => true
  | some (Except.ok (some _)) => true
  | _ => false

/-- The probe that the existence policy makes of `name` returns: none is made
(`includeMissing`), or the filesystem is not the nil interface and answers. -/
def Options.probeReturns (o : Options) (name : String) : Bool :=
  o.includeMissing ||
    match o.fs with
    | none => false
    | some fsys => fsys.answers name

/-- The panic in which the probe of `name` ends when it does not return. -/
def Options.probePanic (o : Options) (name : String) : Panic :=
  match o.fs with
  | none => Panic.nilDereference
  | some fsys =>
    match fsys.Stat name with
    | none => Panic.inFilesystem
    | _ => Panic.nilDereference

/-- The panic of the first of the candidates whose probe does not return. -/
def Options.firstPanic (o : Options) : List String → Panic
  | [] => Panic.nilDereference
  | c :: cs => if o.probeReturns c then o.firstPanic cs else o.probePanic c

/-- The existence policy: a candidate is included unconditionally if
`includeMissing` is true, and otherwise only if the filesystem reports that it
exists and is not a directory. -/
def Options.admits (o : Options) (name : String) : Bool :=
  o.includeMissing ||
    match o.fs with
    | none => false
    | some fsys => probeOk fsys name

/-- The candidate paths of the system locations, in the order of the root list. -/
def Options.systemCandidates (o : Options) (env : Env) : List String :=
  env.systemConfigs.map (fun s => filepath.Join [s, o.appName, o.configName])

/-- The candidate path of the user configuration directory, if that resolves. -/
def Options.userCandidates (o : Options) (env : Env) : List String :=
  match env.UserConfigDir with
  | none => []
  | some d => [filepath.Join [d, o.appName, o.configName]]

/-- The directories met by at most `fuel` steps to the parent, topmost first. -/
def walkFuel : Nat → String → List String
  | 0, path => [path]
  | fuel + 1, path =>
    (if filepath.Dir path ≠ path then walkFuel fuel (filepath.Dir path) else []) ++ [path]

/-- The directory chain of a path: the path and its ancestors, root first. -/
def walk (path : String) : List String := walkFuel (path.length + 2) path

/-- The candidate paths of the directory chain of the working directory. -/
def Options.pathCandidates (o : Options) (env : Env) : List String :=
  match env.Getwd with
  | none => []
  | some wd => (walk wd).map (fun d => filepath.Join [d, o.configNameInPath])

/-- A slice after a list of further appends: unchanged when there are none. -/
def Slice.extend (files : Slice) (l : List String) : Slice :=
  if l = [] then files else some (files.toList ++ l)

/-- A valid path segment, the shape of a file or directory name: not empty,
without separator, and neither `.` nor `..`. -/
def isSegment (s : String) : Bool :=
  decide (s ≠ "") && !s.data.contains '/' && decide (s ≠ ".") && decide (s ≠ "..")

/-- A rooted path: one that starts with the separator. -/
def isRooted (path : String) : Bool := path.data.head? = some '/'

/-- The absolute path `/s1/.../sn` with the given segments; the root `/` for
no segment. -/
def absPath (segs : List String) : String := "/" ++ filepath.joinSep segs

/-- The file `name` in the directory `/s1/.../sn`: `/s1/.../sn/name`, and
`/name` in the root. -/
def fileIn (segs : List String) (name : String) : String := absPath (segs ++ [name])

/-- The bound on the number of steps to the parent that a path can take
before the parent equals the path. -/
def walkMeasure (path : String) : Nat :=
  if filepath.Dir path = path then 0 else path.length + 1

/-- A configuration setter call. -/
inductive Setter
  | ConfigName (configName : String)
  | ConfigNameInPath (configName : String)
  | IncludeMissing (incl : Bool)
  | FS (fs : Option FS)

/-- The configuration after a setter call. -/
def Setter.apply (o : Options) : Setter → Options
  | Setter.ConfigName n => o.ConfigName n
  | Setter.ConfigNameInPath n => o.ConfigNameInPath n
  | Setter.IncludeMissing b => o.IncludeMissing b
  | Setter.FS f => o.FS f

/-! ## Auxiliary notions of the proofs -/

namespace filepath

/-- Characters and separators accounted for by a list of path elements. -/
def sepLen (es : List (List Char)) : Nat := (es.map (fun e => e.length + 1)).sum

/-- The state of `Clean` after its main loop. -/
def cleanLoop (path : List Char) : CleanState :=
  let rooted : Bool := path.head? = some '/'
  (splitSep (if rooted then path.tail else path)).foldl (cleanStep rooted)
    (if rooted then ⟨['/'], 1⟩ else ⟨[], 0⟩)

/-- The function `joinSep` on character lists. -/
def joinChars : List (List Char) → List Char
  | [] => []
  | [a] => a
  | a :: rest => a ++ '/' :: joinChars rest

/-- A valid path segment as a character list. -/
def segChars (e : List Char) : Prop := e ≠ [] ∧ '/' ∉ e ∧ e ≠ ['.'] ∧ e ≠ ['.', '.']

end filepath

/-- The existence policy applied to a list of candidates in turn, starting
from the accumulated list `files`. -/
def Options.appendAll (o : Options) (files : Slice) (names : List String) : Except Panic Slice :=
  names.foldlM (fun files name => o.appendIfFile files name) files

/-- The candidate paths of `Enumerate`: system, user, directory chain. -/
def Options.candidates (o : Options) (env : Env) : List String :=
  o.systemCandidates env ++ o.userCandidates env ++ o.pathCandidates env

/-- A result that is a list of paths each of which exists on `fsys` and is
not a directory. -/
def existNotDir (fsys : FS) (r : Except Panic Slice) : Prop :=
  ∃ files, r = Except.ok files ∧
    ∀ p ∈ files.toList, ∃ info,
      fsys.Stat p = some (Except.ok (some info)) ∧ info.IsDir = false

/-- A result that, when it is a list, is a list of paths each of which exists
on `fsys` and is not a directory. -/
def returnedExistNotDir (fsys : FS) (r : Except Panic Slice) : Prop :=
  ∀ files, r = Except.ok files →
    ∀ p ∈ files.toList, ∃ info,
      fsys.Stat p = some (Except.ok (some info)) ∧ info.IsDir = false

/-- A call that returns a list normally. -/
def returns (r : Except Panic Slice) : Prop := ∃ files, r = Except.ok files

/-! ## A sample system -/

/-- The probe of a sample filesystem: two regular files, a directory, a named
pipe and an unreadable place. -/
def sampleStat (name : String) : Except FsError FileInfo :=
  if name = "/etc/app/app.conf" then Except.ok ⟨FileMode.regular⟩
  else if name = "/etc/xdg/app/app.conf" then Except.ok ⟨FileMode.dir⟩
  else if name = "/home/u/.config/app/app.conf" then Except.ok ⟨FileMode.namedPipe⟩
  else if name = "/a/.app" then Except.ok ⟨FileMode.regular⟩
  else if name = "/a/b/.app" then Except.error FsError.permission
  else Except.error FsError.notExist

/-- The sample filesystem as an `fs.FS` that takes the candidate paths as they are. -/
def sampleFS : FS := ⟨fun name => os.statInfo (sampleStat name)⟩

/-- A filesystem whose `Stat` reports no error and gives no file information. -/
def nilInfoFS : FS := ⟨fun _ => some (Except.ok none)⟩

/-- A filesystem whose `Stat` panics. -/
def panicFS : FS := ⟨fun _ => none⟩

/-- A sample environment. -/
def sampleEnv : Env := ⟨["/etc", "/etc/xdg"], some "/home/u/.config", some "/a/b/c"⟩

/-- The number of steps to the parent that the walk from `path` takes. -/
def walkDepth (path : String) : Nat := (walk path).length - 1

/-- The last value given for the config file name in a sequence of setter calls. -/
def Setter.lastConfigName (setters : List Setter) : Option String :=
  setters.reverse.findSome? (fun s =>
    match s with
    | Setter.ConfigName n => some n
    | _ => none)

/-- The last value given for the in-path config file name in a sequence of
setter calls. -/
def Setter.lastConfigNameInPath (setters : List Setter) : Option String :=
  setters.reverse.findSome? (fun s =>
    match s with
    | Setter.ConfigNameInPath n => some n
    | _ => none)

/-- The last value given for `includeMissing` in a sequence of setter calls. -/
def Setter.lastIncludeMissing (setters : List Setter) : Option Bool :=
  setters.reverse.findSome? (fun s =>
    match s with
    | Setter.IncludeMissing b => some b
    | _ => none)

/-- The last filesystem given in a sequence of setter calls. -/
def Setter.lastFS (setters : List Setter) : Option (Option Enumconf.FS) :=
  setters.reverse.findSome? (fun s =>
    match s with
    | Setter.FS f => some f
    | _ => none)

/-- A sample environment none of whose candidates exists on the sample
filesystem. -/
def bareEnv : Env := ⟨["/opt"], some "/root/.config", some "/tmp"⟩

/-- The result `rf` holds the paths of the result `rt` that pass the probe on
`fsys`, in the same order. -/
def filteredBy (fsys : FS) (rf rt : Except Panic Slice) : Prop :=
  ∃ sf st, rf = Except.ok sf ∧ rt = Except.ok st ∧
    sf.toList = st.toList.filter (probeOk fsys) ∧ sf.toList.Sublist st.toList

/-- The four query operations. -/
inductive Query
  | EnumerateSystem
  | EnumerateUser
  | EnumeratePath
  | Enumerate
  deriving DecidableEq, Repr

/-- The result of a query operation on a configuration. -/
def Query.eval (q : Query) (o : Options) (env : Env) : Except Panic Slice :=
  match q with
  | Query.EnumerateSystem => o.EnumerateSystem env
  | Query.EnumerateUser => o.EnumerateUser env
  | Query.EnumeratePath => o.EnumeratePath env
  | Query.Enumerate => o.Enumerate env

/-! ## The methods with the receiver passed on

The methods have the pointer receiver `o *Options`. In this form a call takes
the enumerator before the call and yields the value returned together with the
enumerator after the call, and each call inside a method is made on the
enumerator that the call before it left. -/

/-- The method `appendIfFile`, which reads the fields `includeMissing` and `fs`. -/
def Options.appendIfFileS (o : Options) (files : Slice) (name : String) :
    Except Panic (Slice × Options) :=
  if !o.includeMissing then
    match iofs.Stat o.fs name with
    | Except.error p => Except.error p
    | Except.ok (Except.error _) => Except.ok (files, o)
    | Except.ok (Except.ok none) => Except.error Panic.nilDereference
    | Except.ok (Except.ok (some info)) =>
      if info.IsDir then Except.ok (files, o) else Except.ok (files.append name, o)
  else Except.ok (files.append name, o)

/-- The method `appendSystem`: each round of the loop reads `appName` and
`configName` and calls `appendIfFile`. -/
def Options.appendSystemS (o : Options) (env : Env) (files : Slice) :
    Except Panic (Slice × Options) :=
  env.systemConfigs.foldlM
    (fun (st : Slice × Options) s =>
      st.2.appendIfFileS st.1 (filepath.Join [s, st.2.appName, st.2.configName]))
    (files, o)

/-- The method `EnumerateSystem`. -/
def Options.EnumerateSystemS (o : Options) (env : Env) : Except Panic (Slice × Options) :=
  o.appendSystemS env none

/-- The method `appendUser`. -/
def Options.appendUserS (o : Options) (env : Env) (files : Slice) :
    Except Panic (Slice × Options) :=
  match env.UserConfigDir with
  | none => Except.ok (files, o)
  | some d => o.appendIfFileS files (filepath.Join [d, o.appName, o.configName])

/-- The method `EnumerateUser`. -/
def Options.EnumerateUserS (o : Options) (env : Env) : Except Panic (Slice × Options) :=
  o.appendUserS env none

/-- The method `appendPathFromRoot`, with the bound on the depth of its
recursion. -/
def Options.appendPathFromRootFuelS (o : Options) :
    Nat → Slice → String → Except Panic (Slice × Options)
  | 0, _, _ => Except.error Panic.stackOverflow
  | fuel + 1, files, path =>
    let parent := filepath.Dir path
    (if parent ≠ path then o.appendPathFromRootFuelS fuel files parent
      else Except.ok (files, o))
      >>= fun st => st.2.appendIfFileS st.1 (filepath.Join [path, st.2.configNameInPath])

/-- The method `appendPath`. -/
def Options.appendPathS (o : Options) (env : Env) (files : Slice) :
    Except Panic (Slice × Options) :=
  match env.Getwd with
  | none => Except.ok (files, o)
  | some path => o.appendPathFromRootFuelS (path.length + 2) files path

/-- The method `EnumeratePath`. -/
def Options.EnumeratePathS (o : Options) (env : Env) : Except Panic (Slice × Options) :=
  o.appendPathS env none

/-- The method `Enumerate`. -/
def Options.EnumerateS (o : Options) (env : Env) : Except Panic (Slice × Options) :=
  o.appendSystemS env none >>= fun st =>
  st.2.appendUserS env st.1 >>= fun st =>
  st.2.appendPathS env st.1

/-- A call of a query method on the enumerator `o`: the list returned and the
enumerator after the call. -/
def Query.callS (q : Query) (env : Env) (o : Options) : Except Panic (Slice × Options) :=
  match q with
  | Query.EnumerateSystem => o.EnumerateSystemS env
  | Query.EnumerateUser => o.EnumerateUserS env
  | Query.EnumeratePath => o.EnumeratePathS env
  | Query.Enumerate => o.EnumerateS env

/-- A sequence of query calls on one enumerator, each made on the enumerator
that the call before it left: the lists returned, in order, and the enumerator
after the last call. -/
def runQueriesS (env : Env) : Options → List Query → Except Panic (List Slice × Options)
  | o, [] => Except.ok ([], o)
  | o, q :: qs =>
    q.callS env o >>= fun st =>
    runQueriesS env st.2 qs >>= fun rest =>
    Except.ok (st.1 :: rest.1, rest.2)

/-- The results of a list of query operations on one and the same
configuration. -/
def evalQueries (env : Env) (o : Options) : List Query → Except Panic (List Slice)
  | [] => Except.ok []
  | q :: qs =>
    q.eval o env >>= fun r =>
    evalQueries env o qs >>= fun rs =>
    Except.ok (r :: rs)

namespace filepath

/-- The path element `..`. -/
def dotdotElem : List Char := ['.', '.']

/-- The output buffer of `Clean` that holds the elements `els`, after the
leading separator when the path is rooted. -/
def cleanOut (rooted : Bool) (els : List (List Char)) : List Char :=
  (if rooted then ['/'] else []) ++ joinChars els

/-- The states that the main loop of `Clean` reaches: the buffer holds `m`
elements `..` (none when the path is rooted) followed by valid segments, and
`dotdot` is the index where the elements `..` end. -/
def CleanInv (rooted : Bool) (st : CleanState) : Prop :=
  ∃ (m : Nat) (done : List (List Char)), (rooted = true → m = 0) ∧
    (∀ e ∈ done, segChars e) ∧
    st = ⟨cleanOut rooted (List.replicate m dotdotElem ++ done),
      (cleanOut rooted (List.replicate m dotdotElem)).length⟩

end filepath

/-! # Verification -/

/-! ## Length of a cleaned path -/

namespace filepath

theorem splitSep_ne_nil (l : List Char) : splitSep l ≠ [] := by
  cases l with
  | nil => simp [splitSep]
  | cons c cs =>
    simp only [splitSep]
    split
    · simp
    · cases splitSep cs <;> simp [pushChar]

theorem sepLen_pushChar (c : Char) (es : List (List Char)) (h : es ≠ []) :
    sepLen (pushChar c es) = sepLen es + 1 := by
  cases es with
  | nil => exact absurd rfl h
  | cons e es => simp [pushChar, sepLen]; omega

theorem sepLen_splitSep (l : List Char) : sepLen (splitSep l) = l.length + 1 := by
  induction l with
  | nil => simp [splitSep, sepLen]
  | cons c cs ih =>
    simp only [splitSep]
    split
    · simp only [sepLen, List.map_cons, List.sum_cons, List.length_nil, List.length_cons] at ih ⊢
      omega
    · rw [sepLen_pushChar c _ (splitSep_ne_nil cs), ih]
      simp

theorem pushChar_append (c : Char) (es fs : List (List Char)) (h : es ≠ []) :
    pushChar c (es ++ fs) = pushChar c es ++ fs := by
  cases es with
  | nil => exact absurd rfl h
  | cons e es => simp [pushChar]

theorem splitSep_append_sep (l : List Char) : splitSep (l ++ ['/']) = splitSep l ++ [[]] := by
  induction l with
  | nil => simp [splitSep]
  | cons c cs ih =>
    rw [List.cons_append, splitSep, splitSep]
    split
    · simp [ih]
    · rw [ih, pushChar_append c _ _ (splitSep_ne_nil cs)]

theorem cleanStep_nil (r : Bool) (st : CleanState) : cleanStep r st [] = st := by
  simp [cleanStep]

theorem cleanStep_length_le (r : Bool) (st : CleanState) (e : List Char) :
    (cleanStep r st e).out.length ≤ st.out.length + (e.length + 1) := by
  unfold cleanStep
  split
  · omega
  · split
    · omega
    · split
      · rename_i h
        subst h
        split
        · simp only [List.length_take]
          omega
        · split
          · simp only [List.length_append]
            split <;> simp
          · omega
      · simp only [List.length_append]
        split
        · simp only [List.length_append, List.length_cons, List.length_nil]
          omega
        · omega

theorem cleanStep_length_le_first (r : Bool) (st : CleanState) (e : List Char)
    (h : st.out.length = if r then 1 else 0) :
    (cleanStep r st e).out.length ≤ st.out.length + e.length := by
  unfold cleanStep
  split
  · omega
  · split
    · omega
    · split
      · rename_i h2
        subst h2
        split
        · simp only [List.length_take]
          omega
        · split
          · rename_i hr
            have hr2 : r = false := by simpa using hr
            subst hr2
            simp only [Bool.false_eq_true, if_false] at h
            simp [h]
          · omega
      · cases r <;> simp at h <;> simp [h]

theorem foldl_cleanStep_length_le (r : Bool) (es : List (List Char)) (st : CleanState) :
    (es.foldl (cleanStep r) st).out.length ≤ st.out.length + sepLen es := by
  induction es generalizing st with
  | nil => simp [sepLen]
  | cons e es ih =>
    have h1 := cleanStep_length_le r st e
    have h2 := ih (cleanStep r st e)
    simp only [sepLen, List.map_cons, List.sum_cons, List.foldl_cons] at h2 ⊢
    omega

theorem foldl_cleanStep_length_first (r : Bool) (es : List (List Char)) (st : CleanState)
    (hes : es ≠ []) (h : st.out.length = if r then 1 else 0) :
    (es.foldl (cleanStep r) st).out.length + 1 ≤ st.out.length + sepLen es := by
  cases es with
  | nil => exact absurd rfl hes
  | cons e es =>
    have h1 := cleanStep_length_le_first r st e h
    have h2 := foldl_cleanStep_length_le r es (cleanStep r st e)
    simp only [sepLen, List.map_cons, List.sum_cons, List.foldl_cons] at h2 ⊢
    omega

theorem cleanChars_eq (path : List Char) (h : path ≠ []) :
    cleanChars path = if (cleanLoop path).out.length = 0 then ['.'] else (cleanLoop path).out := by
  simp [cleanChars, cleanLoop, h]

theorem cleanLoop_append_sep_length (l : List Char) (h : l ≠ []) :
    (cleanLoop (l ++ ['/'])).out.length ≤ l.length := by
  cases l with
  | nil => exact absurd rfl h
  | cons c cs =>
    by_cases hc : c = '/'
    · subst hc
      have h1 := foldl_cleanStep_length_first true (splitSep cs) ⟨['/'], 1⟩
        (splitSep_ne_nil cs) (by simp)
      rw [sepLen_splitSep] at h1
      simp only [cleanLoop, List.cons_append, List.head?_cons, decide_True, if_true,
        List.tail_cons, List.length_cons, splitSep_append_sep, List.foldl_append,
        List.foldl_cons, List.foldl_nil, cleanStep_nil] at h1 ⊢
      simp only [List.length_nil] at h1
      omega
    · have h1 := foldl_cleanStep_length_first false (splitSep (c :: cs)) ⟨[], 0⟩
        (splitSep_ne_nil _) (by simp)
      rw [sepLen_splitSep] at h1
      have hd : decide (((c :: cs) ++ ['/']).head? = some '/') = false := by simp [hc]
      simp only [cleanLoop, hd, Bool.false_eq_true, if_false, List.length_cons,
        splitSep_append_sep, List.foldl_append, List.foldl_cons, List.foldl_nil,
        cleanStep_nil] at h1 ⊢
      simp only [List.length_nil] at h1
      omega

theorem cleanChars_append_sep (l : List Char) :
    cleanChars (l ++ ['/']) = ['/'] ∨ (cleanChars (l ++ ['/'])).length < (l ++ ['/']).length := by
  cases l with
  | nil => left; decide
  | cons c cs =>
    right
    have h1 := cleanLoop_append_sep_length (c :: cs) (by simp)
    rw [cleanChars_eq _ (by simp)]
    split
    · simp
    · simp only [List.length_append, List.length_cons, List.length_nil] at h1 ⊢
      omega

theorem dropWhile_nil_or_head (p : Char → Bool) (r : List Char) :
    r.dropWhile p = [] ∨ ∃ c t, r.dropWhile p = c :: t ∧ p c = false := by
  induction r with
  | nil => left; rfl
  | cons a r ih =>
    by_cases ha : p a = true
    · simpa [List.dropWhile_cons, ha] using ih
    · right
      exact ⟨a, r, by simp [List.dropWhile_cons, ha], by simpa using ha⟩

theorem dirPart_nil_or_sep (l : List Char) : dirPart l = [] ∨ ∃ t, dirPart l = t ++ ['/'] := by
  rcases dropWhile_nil_or_head (fun c => c != '/') l.reverse with h | ⟨c, t, h, hc⟩
  · left
    simp [dirPart, h]
  · right
    have hc2 : c = '/' := by simpa using hc
    subst hc2
    exact ⟨t.reverse, by simp [dirPart, h]⟩

theorem dirPart_length_le (l : List Char) : (dirPart l).length ≤ l.length := by
  have h := (List.dropWhile_sublist (fun c => c != '/') (l := l.reverse)).length_le
  simpa [dirPart] using h

end filepath

theorem Dir_dot : filepath.Dir "." = "." := by decide

theorem Dir_root : filepath.Dir "/" = "/" := by decide

theorem Dir_fixed_or_shorter (p : String) :
    filepath.Dir (filepath.Dir p) = filepath.Dir p ∨ (filepath.Dir p).length < p.length := by
  rcases filepath.dirPart_nil_or_sep p.data with h | ⟨t, h⟩
  · left
    have h1 : filepath.Dir p = "." := by
      simp only [filepath.Dir, filepath.Clean, h]
      decide
    rw [h1]
    exact Dir_dot
  · rcases filepath.cleanChars_append_sep t with h2 | h2
    · left
      have h1 : filepath.Dir p = "/" := by
        simp only [filepath.Dir, filepath.Clean, h, h2]
      rw [h1]
      exact Dir_root
    · right
      have h3 := filepath.dirPart_length_le p.data
      simp only [filepath.Dir, filepath.Clean, h, String.length_mk]
      rw [h] at h3
      exact Nat.lt_of_lt_of_le h2 h3

theorem walkMeasure_le (p : String) : walkMeasure p ≤ p.length + 1 := by
  unfold walkMeasure
  split <;> omega

theorem walkMeasure_Dir_lt (p : String) (h : filepath.Dir p ≠ p) :
    walkMeasure (filepath.Dir p) < walkMeasure p := by
  rcases Dir_fixed_or_shorter p with h1 | h1
  · simp [walkMeasure, h1, h]
  · have h2 := walkMeasure_le (filepath.Dir p)
    simp only [walkMeasure, h, if_false] at h2 ⊢
    omega

theorem appendPathFromRootFuel_succ (o : Options) (n : Nat) (files : Slice) (path : String) :
    o.appendPathFromRootFuel (n + 1) files path =
      ((if filepath.Dir path ≠ path then o.appendPathFromRootFuel n files (filepath.Dir path)
        else Except.ok files) >>= fun files =>
        o.appendIfFile files (filepath.Join [path, o.configNameInPath])) := rfl

theorem appendPathFromRootFuel_fuel (o : Options) (n : Nat) :
    ∀ (m : Nat) (files : Slice) (path : String), walkMeasure path < n → walkMeasure path < m →
      o.appendPathFromRootFuel n files path = o.appendPathFromRootFuel m files path := by
  induction n with
  | zero => intro m files path h; omega
  | succ n ih =>
    intro m files path hn hm
    cases m with
    | zero => omega
    | succ m =>
      rw [appendPathFromRootFuel_succ, appendPathFromRootFuel_succ]
      by_cases hd : filepath.Dir path = path
      · simp [hd]
      · have h1 := walkMeasure_Dir_lt path hd
        rw [ih m files (filepath.Dir path) (by omega) (by omega)]

/-- The method `appendPathFromRoot` satisfies the recursive equation of the
source for every path: the bound on the depth of the recursion is not reached. -/
theorem appendPathFromRoot_unfold (o : Options) (files : Slice) (path : String) :
    o.appendPathFromRoot files path =
      ((if filepath.Dir path ≠ path then o.appendPathFromRoot files (filepath.Dir path)
        else Except.ok files) >>= fun files =>
        o.appendIfFile files (filepath.Join [path, o.configNameInPath])) := by
  by_cases hd : filepath.Dir path = path
  · simp [Options.appendPathFromRoot, appendPathFromRootFuel_succ, hd]
  · have h1 := walkMeasure_Dir_lt path hd
    have h2 := walkMeasure_le path
    have h3 := walkMeasure_le (filepath.Dir path)
    simp only [Options.appendPathFromRoot]
    rw [appendPathFromRootFuel_succ, appendPathFromRootFuel_fuel o (path.length + 1) ((filepath.Dir path).length + 2) files
      (filepath.Dir path) (by omega) (by omega)]

/-! ## The results as filtered candidate lists -/

theorem bind_ok {α β : Type} (a : α) (f : α → Except Panic β) :
    ((Except.ok a : Except Panic α) >>= f) = f a := rfl

theorem bind_error {α β : Type} (e : Panic) (f : α → Except Panic β) :
    ((Except.error e : Except Panic α) >>= f) = Except.error e := rfl

theorem map_ok {α β : Type} (a : α) (f : α → β) :
    (f <$> (Except.ok a : Except Panic α)) = Except.ok (f a) := rfl

theorem map_error {α β : Type} (e : Panic) (f : α → β) :
    (f <$> (Except.error e : Except Panic α)) = Except.error e := rfl

theorem Slice.toList_extend (files : Slice) (l : List String) :
    (files.extend l).toList = files.toList ++ l := by
  unfold Slice.extend
  split
  · rename_i h
    simp [h]
  · rfl

theorem Slice.extend_nil (files : Slice) : files.extend [] = files := by
  simp [Slice.extend]

theorem Slice.extend_extend (files : Slice) (l k : List String) :
    (files.extend l).extend k = files.extend (l ++ k) := by
  by_cases hk : k = []
  · subst hk
    simp [Slice.extend_nil]
  · by_cases hl : l = []
    · subst hl
      simp [Slice.extend_nil]
    · simp [Slice.extend, hk, hl, Slice.toList]

theorem Slice.append_eq_extend (files : Slice) (name : String) :
    files.append name = files.extend [name] := by
  simp [Slice.append, Slice.extend]

theorem appendIfFile_eq (o : Options) (files : Slice) (name : String) :
    o.appendIfFile files name =
      if o.probeReturns name then Except.ok (if o.admits name then files.append name else files)
      else Except.error (o.probePanic name) := by
  cases hi : o.includeMissing with
  | true => simp [Options.appendIfFile, Options.probeReturns, Options.admits, hi]
  | false =>
    cases hf : o.fs with
    | none =>
      simp [Options.appendIfFile, Options.probeReturns, Options.admits, Options.probePanic, hi,
        hf, iofs.Stat]
    | some fsys =>
      cases hs : fsys.Stat name with
      | none =>
        simp [Options.appendIfFile, Options.probeReturns, Options.admits, Options.probePanic,
          hi, hf, iofs.Stat, probeOk, FS.answers, hs]
      | some a =>
        cases a with
        | error e =>
          simp [Options.appendIfFile, Options.probeReturns, Options.admits, hi, hf, iofs.Stat,
            probeOk, FS.answers, hs]
        | ok r =>
          cases r with
          | none =>
            simp [Options.appendIfFile, Options.probeReturns, Options.admits,
              Options.probePanic, hi, hf, iofs.Stat, probeOk, FS.answers, hs]
          | some info =>
            cases hd : info.IsDir <;>
              simp [Options.appendIfFile, Options.probeReturns, Options.admits, hi, hf,
                iofs.Stat, probeOk, FS.answers, hs, hd]

theorem appendAll_nil (o : Options) (files : Slice) : o.appendAll files [] = Except.ok files := rfl

theorem appendAll_cons (o : Options) (files : Slice) (name : String) (names : List String) :
    o.appendAll files (name :: names) =
      (o.appendIfFile files name >>= fun files => o.appendAll files names) := by
  simp [Options.appendAll, List.foldlM_cons]

theorem bind_ok_right {α : Type} (x : Except Panic α) :
    (x >>= fun a => (Except.ok a : Except Panic α)) = x := by
  cases x <;> rfl

theorem appendAll_singleton (o : Options) (files : Slice) (name : String) :
    o.appendAll files [name] = o.appendIfFile files name := by
  rw [appendAll_cons]
  simp only [appendAll_nil]
  exact bind_ok_right _

theorem appendAll_append (o : Options) (files : Slice) (l k : List String) :
    o.appendAll files (l ++ k) = (o.appendAll files l >>= fun files => o.appendAll files k) := by
  simp [Options.appendAll, List.foldlM_append]

/-- The existence policy applied to a list of candidates: the panic of the
first probe that does not return, when there is one, and otherwise the
accumulated list extended by the admitted candidates, in order. -/
theorem appendAll_eq (o : Options) (names : List String) :
    ∀ files : Slice, o.appendAll files names =
      if names.all o.probeReturns = true then
        Except.ok (files.extend (names.filter o.admits))
      else Except.error (o.firstPanic names) := by
  induction names with
  | nil => intro files; simp [appendAll_nil, Slice.extend_nil]
  | cons name names ih =>
    intro files
    rw [appendAll_cons, appendIfFile_eq]
    cases hp : o.probeReturns name with
    | false => simp [bind_error, hp, Options.firstPanic]
    | true =>
      simp only [if_true, bind_ok, ih, List.all_cons, hp, Bool.true_and, Options.firstPanic]
      cases hall : names.all o.probeReturns with
      | false => simp
      | true =>
        cases ha : o.admits name
        · simp [List.filter_cons, ha]
        · simp [List.filter_cons, ha, Slice.append_eq_extend, Slice.extend_extend]

theorem probePanic_ne_stackOverflow (o : Options) (name : String) :
    o.probePanic name ≠ Panic.stackOverflow := by
  unfold Options.probePanic
  split
  · simp
  · split <;> simp

theorem firstPanic_ne_stackOverflow (o : Options) (names : List String) :
    o.firstPanic names ≠ Panic.stackOverflow := by
  induction names with
  | nil => simp [Options.firstPanic]
  | cons c cs ih =>
    simp only [Options.firstPanic]
    split
    · exact ih
    · exact probePanic_ne_stackOverflow o c

theorem firstPanic_append (o : Options) (l k : List String) :
    o.firstPanic (l ++ k) =
      if l.all o.probeReturns = true then o.firstPanic k else o.firstPanic l := by
  induction l with
  | nil => simp
  | cons c cs ih =>
    cases hc : o.probeReturns c <;> simp [Options.firstPanic, hc, ih]

theorem appendAll_of_probes (o : Options) (names : List String)
    (h : ∀ c ∈ names, o.probeReturns c = true) (files : Slice) :
    o.appendAll files names = Except.ok (files.extend (names.filter o.admits)) := by
  rw [appendAll_eq, if_pos (List.all_eq_true.mpr h)]

theorem returns_appendAll_iff (o : Options) (files : Slice) (names : List String) :
    returns (o.appendAll files names) ↔ ∀ c ∈ names, o.probeReturns c = true := by
  rw [appendAll_eq]
  constructor
  · intro h
    by_cases hall : names.all o.probeReturns = true
    · exact List.all_eq_true.mp hall
    · rw [if_neg hall] at h
      obtain ⟨f, hf⟩ := h
      exact absurd hf (by simp)
  · intro h
    rw [if_pos (List.all_eq_true.mpr h)]
    exact ⟨_, rfl⟩

theorem appendSystem_eq (o : Options) (env : Env) (files : Slice) :
    o.appendSystem env files = o.appendAll files (o.systemCandidates env) := by
  simp [Options.appendSystem, Options.appendAll, Options.systemCandidates, List.foldlM_map]

theorem appendUser_eq (o : Options) (env : Env) (files : Slice) :
    o.appendUser env files = o.appendAll files (o.userCandidates env) := by
  unfold Options.appendUser Options.userCandidates
  cases env.UserConfigDir with
  | none => rfl
  | some d => simp [appendAll_singleton]

theorem walkFuel_succ (n : Nat) (path : String) :
    walkFuel (n + 1) path =
      (if filepath.Dir path ≠ path then walkFuel n (filepath.Dir path) else []) ++ [path] := rfl

theorem appendPathFromRootFuel_eq (o : Options) (n : Nat) :
    ∀ (files : Slice) (path : String), walkMeasure path < n →
      o.appendPathFromRootFuel n files path =
        o.appendAll files ((walkFuel n path).map
          (fun d => filepath.Join [d, o.configNameInPath])) := by
  induction n with
  | zero => intro files path h; omega
  | succ n ih =>
    intro files path hn
    rw [appendPathFromRootFuel_succ, walkFuel_succ, List.map_append, appendAll_append]
    by_cases hd : filepath.Dir path = path
    · simp [hd, appendAll_nil, appendAll_singleton, bind_ok]
    · have h1 := walkMeasure_Dir_lt path hd
      simp only [ne_eq, hd, not_false_eq_true, if_true]
      rw [ih files (filepath.Dir path) (by omega)]
      simp [appendAll_singleton]

theorem appendPathFromRoot_eq (o : Options) (files : Slice) (path : String) :
    o.appendPathFromRoot files path =
      o.appendAll files ((walk path).map (fun d => filepath.Join [d, o.configNameInPath])) := by
  have h := walkMeasure_le path
  exact appendPathFromRootFuel_eq o (path.length + 2) files path (by omega)

theorem appendPath_eq (o : Options) (env : Env) (files : Slice) :
    o.appendPath env files = o.appendAll files (o.pathCandidates env) := by
  unfold Options.appendPath Options.pathCandidates
  cases env.Getwd with
  | none => rfl
  | some wd => exact appendPathFromRoot_eq o files wd

theorem EnumerateSystem_eq (o : Options) (env : Env) :
    o.EnumerateSystem env = o.appendAll none (o.systemCandidates env) :=
  appendSystem_eq o env none

theorem EnumerateUser_eq (o : Options) (env : Env) :
    o.EnumerateUser env = o.appendAll none (o.userCandidates env) :=
  appendUser_eq o env none

theorem EnumeratePath_eq (o : Options) (env : Env) :
    o.EnumeratePath env = o.appendAll none (o.pathCandidates env) :=
  appendPath_eq o env none

theorem Enumerate_eq (o : Options) (env : Env) :
    o.Enumerate env = o.appendAll none (o.candidates env) := by
  simp only [Options.Enumerate, Options.candidates, appendAll_append, appendSystem_eq,
    appendUser_eq, appendPath_eq, bind_assoc]

theorem probeReturns_of_answers (o : Options) (fsys : FS) (hf : o.fs = some fsys)
    (name : String) (h : fsys.answers name = true) : o.probeReturns name = true := by
  simp [Options.probeReturns, hf, h]

theorem existNotDir_appendAll (o : Options) (fsys : FS) (hi : o.includeMissing = false)
    (hf : o.fs = some fsys) (names : List String)
    (ha : ∀ c ∈ names, fsys.answers c = true) :
    existNotDir fsys (o.appendAll none names) := by
  have hp : ∀ c ∈ names, o.probeReturns c = true :=
    fun c hc => probeReturns_of_answers o fsys hf c (ha c hc)
  refine ⟨_, appendAll_of_probes o names hp none, ?_⟩
  intro p hmem
  rw [Slice.toList_extend] at hmem
  have hmem2 : p ∈ names.filter o.admits := by simpa [Slice.toList] using hmem
  have hadm : o.admits p = true := (List.mem_filter.mp hmem2).2
  simp only [Options.admits, hi, hf, Bool.false_or, probeOk] at hadm
  cases hs : fsys.Stat p with
  | none => simp [hs] at hadm
  | some a =>
    cases a with
    | error e => simp [hs] at hadm
    | ok r =>
      cases r with
      | none => simp [hs] at hadm
      | some info =>
        refine ⟨info, rfl, ?_⟩
        simpa [hs] using hadm

theorem returnedExistNotDir_appendAll (o : Options) (fsys : FS) (hi : o.includeMissing = false)
    (hf : o.fs = some fsys) (names : List String) :
    returnedExistNotDir fsys (o.appendAll none names) := by
  intro files hfiles
  have hp := (returns_appendAll_iff o none names).mp ⟨files, hfiles⟩
  have ha : ∀ c ∈ names, fsys.answers c = true := by
    intro c hc
    simpa [Options.probeReturns, hi, hf] using hp c hc
  obtain ⟨files2, h2, hprop⟩ := existNotDir_appendAll o fsys hi hf names ha
  rw [hfiles] at h2
  rw [Except.ok.inj h2]
  exact hprop

theorem appendAll_includeMissing (o : Options) (h : o.includeMissing = true)
    (names : List String) : o.appendAll none names = Except.ok (Slice.extend none names) := by
  have hp : ∀ c ∈ names, o.probeReturns c = true := by
    intro c _
    simp [Options.probeReturns, h]
  have ha : o.admits = fun _ => true := by
    funext n
    simp [Options.admits, h]
  rw [appendAll_of_probes o names hp none, ha]
  simp

/-! ## Cleaning an absolute path made of valid segments -/

namespace filepath

theorem joinChars_cons_cons (a b : List Char) (rest : List (List Char)) :
    joinChars (a :: b :: rest) = a ++ '/' :: joinChars (b :: rest) := rfl

theorem joinChars_snoc (es : List (List Char)) (h : es ≠ []) (x : List Char) :
    joinChars (es ++ [x]) = joinChars es ++ '/' :: x := by
  induction es with
  | nil => exact absurd rfl h
  | cons a es ih =>
    cases es with
    | nil => rfl
    | cons b es =>
      rw [List.cons_append, List.cons_append, joinChars_cons_cons, ← List.cons_append,
        ih (by simp), joinChars_cons_cons]
      simp

theorem joinChars_eq_nil (es : List (List Char)) (h : ∀ e ∈ es, e ≠ []) :
    joinChars es = [] ↔ es = [] := by
  cases es with
  | nil => simp [joinChars]
  | cons a es =>
    have ha : a ≠ [] := h a (by simp)
    cases es with
    | nil => simp [joinChars, ha]
    | cons b es => simp [joinChars_cons_cons, ha]

theorem splitSep_noSep (a : List Char) (h : '/' ∉ a) : splitSep a = [a] := by
  induction a with
  | nil => rfl
  | cons c cs ih =>
    have hc : c ≠ '/' := fun hc => h (by simp [hc])
    have hcs : '/' ∉ cs := fun hm => h (List.mem_cons_of_mem _ hm)
    simp [splitSep, hc, ih hcs, pushChar]

theorem splitSep_append_sep_cons (a t : List Char) (h : '/' ∉ a) :
    splitSep (a ++ '/' :: t) = a :: splitSep t := by
  induction a with
  | nil => simp [splitSep]
  | cons c cs ih =>
    have hc : c ≠ '/' := fun hc => h (by simp [hc])
    have hcs : '/' ∉ cs := fun hm => h (List.mem_cons_of_mem _ hm)
    rw [List.cons_append, splitSep]
    simp [hc, ih hcs, pushChar]

theorem splitSep_joinChars (es : List (List Char)) (hne : es ≠ []) (h : ∀ e ∈ es, '/' ∉ e) :
    splitSep (joinChars es) = es := by
  induction es with
  | nil => exact absurd rfl hne
  | cons a es ih =>
    have ha : '/' ∉ a := h a (by simp)
    cases es with
    | nil => exact splitSep_noSep a ha
    | cons b es =>
      rw [joinChars_cons_cons, splitSep_append_sep_cons a _ ha,
        ih (by simp) (fun e he => h e (List.mem_cons_of_mem _ he))]

theorem cleanStep_rooted_seg (done : List (List Char)) (hd : ∀ e ∈ done, e ≠ [])
    (e : List Char) (he : segChars e) :
    cleanStep true ⟨'/' :: joinChars done, 1⟩ e = ⟨'/' :: joinChars (done ++ [e]), 1⟩ := by
  obtain ⟨h1, _, h3, h4⟩ := he
  by_cases hdone : done = []
  · subst hdone
    simp [cleanStep, h1, h3, h4, joinChars]
  · have hj : joinChars done ≠ [] := fun hj => hdone ((joinChars_eq_nil done hd).mp hj)
    have hl : (joinChars done).length ≠ 0 := fun hl => hj (List.length_eq_zero.mp hl)
    simp [cleanStep, h1, h3, h4, joinChars_snoc done hdone, hl]

theorem foldl_cleanStep_rooted (es : List (List Char)) :
    ∀ done : List (List Char), (∀ e ∈ done, e ≠ []) → (∀ e ∈ es, e = [] ∨ segChars e) →
      es.foldl (cleanStep true) ⟨'/' :: joinChars done, 1⟩ =
        ⟨'/' :: joinChars (done ++ es.filter (fun e => decide (e ≠ []))), 1⟩ := by
  induction es with
  | nil => intro done _ _; simp
  | cons e es ih =>
    intro done hd hes
    have hes2 : ∀ x ∈ es, x = [] ∨ segChars x := fun x hx => hes x (List.mem_cons_of_mem _ hx)
    rcases hes e (by simp) with he | he
    · subst he
      rw [List.foldl_cons, cleanStep_nil, ih done hd hes2]
      simp
    · have hne : e ≠ [] := he.1
      rw [List.foldl_cons, cleanStep_rooted_seg done hd e he,
        ih (done ++ [e]) (by
          intro x hx
          rcases List.mem_append.mp hx with hx | hx
          · exact hd x hx
          · simp at hx
            rw [hx]
            exact hne) hes2]
      simp [List.filter_cons, hne]

/-- Cleaning `/e1/.../en`, each element a valid segment or empty and none with
a separator, drops the empty elements and changes nothing else. -/
theorem cleanChars_rooted (es : List (List Char)) (hsep : ∀ e ∈ es, '/' ∉ e)
    (hes : ∀ e ∈ es, e = [] ∨ segChars e) :
    cleanChars ('/' :: joinChars es) =
      '/' :: joinChars (es.filter (fun e => decide (e ≠ []))) := by
  by_cases hne : es = []
  · subst hne
    decide
  · have h1 := foldl_cleanStep_rooted es [] (by simp) hes
    simp only [cleanChars, List.head?_cons, decide_True, if_true, List.tail_cons,
      splitSep_joinChars es hne hsep]
    simp only [joinChars, List.nil_append] at h1
    simp [h1]

end filepath

theorem isSegment_iff (s : String) : isSegment s = true ↔ filepath.segChars s.data := by
  have h1 : s = "" ↔ s.data = [] := by rw [String.ext_iff]
  have h2 : s = "." ↔ s.data = ['.'] := by rw [String.ext_iff]
  have h3 : s = ".." ↔ s.data = ['.', '.'] := by rw [String.ext_iff]
  simp only [isSegment, filepath.segChars, Bool.and_eq_true, decide_eq_true_eq,
    Bool.not_eq_true', ne_eq, h1, h2, h3, List.contains_eq_any_beq, List.any_eq_false,
    beq_iff_eq]
  constructor
  · rintro ⟨⟨⟨a, b⟩, c⟩, d⟩
    exact ⟨a, fun hm => b _ hm rfl, c, d⟩
  · rintro ⟨a, b, c, d⟩
    exact ⟨⟨⟨a, fun x hx hx2 => b (hx2 ▸ hx)⟩, c⟩, d⟩

theorem joinSep_data (xs : List String) :
    (filepath.joinSep xs).data = filepath.joinChars (xs.map String.data) := by
  induction xs with
  | nil => rfl
  | cons a xs ih =>
    cases xs with
    | nil => rfl
    | cons b xs =>
      have h : filepath.joinSep (a :: b :: xs) = a ++ "/" ++ filepath.joinSep (b :: xs) := rfl
      rw [h, String.data_append, String.data_append, ih]
      simp [filepath.joinChars_cons_cons]

theorem absPath_data (xs : List String) :
    (absPath xs).data = '/' :: filepath.joinChars (xs.map String.data) := by
  simp [absPath, joinSep_data]

/-- Cleaning `/x1/.../xn`, each element a valid segment or empty, drops the
empty elements and changes nothing else. -/
theorem Clean_absPath (xs : List String) (h : ∀ x ∈ xs, x = "" ∨ isSegment x = true) :
    filepath.Clean (absPath xs) = absPath (xs.filter (fun x => decide (x ≠ ""))) := by
  rw [String.ext_iff]
  simp only [filepath.Clean, absPath_data]
  rw [filepath.cleanChars_rooted]
  · congr 2
    simp only [List.filter_map]
    congr 1
    apply List.filter_congr
    intro x _
    simp [Function.comp, String.ext_iff]
  · intro e he
    obtain ⟨x, hx, rfl⟩ := List.mem_map.mp he
    rcases h x hx with h0 | h0
    · subst h0
      simp
    · exact ((isSegment_iff x).mp h0).2.1
  · intro e he
    obtain ⟨x, hx, rfl⟩ := List.mem_map.mp he
    rcases h x hx with h0 | h0
    · left
      subst h0
      rfl
    · right
      exact (isSegment_iff x).mp h0

theorem isSegment_ne_empty (s : String) (h : isSegment s = true) : s ≠ "" := by
  intro h0
  subst h0
  simp [isSegment] at h

theorem filter_segments (segs : List String) (h : ∀ s ∈ segs, isSegment s = true) :
    segs.filter (fun x => decide (x ≠ "")) = segs := by
  apply List.filter_eq_self.mpr
  intro x hx
  simpa using isSegment_ne_empty x (h x hx)

theorem joinSep_snoc (xs : List String) (h : xs ≠ []) (y : String) :
    filepath.joinSep (xs ++ [y]) = filepath.joinSep xs ++ "/" ++ y := by
  rw [String.ext_iff]
  simp [joinSep_data, filepath.joinChars_snoc (xs.map String.data) (by simpa using h)]

theorem absPath_ne_empty (xs : List String) : absPath xs ≠ "" := by
  rw [ne_eq, String.ext_iff, absPath_data]
  simp

/-- The path `d ++ "/" ++ x` for an absolute directory `d = /s1/.../sn`. -/
theorem absPath_slash (segs : List String) (x : String) :
    absPath segs ++ "/" ++ x = absPath (if segs = [] then ["", x] else segs ++ [x]) := by
  split
  · rename_i h
    subst h
    rfl
  · rename_i h
    rw [absPath, absPath, joinSep_snoc segs h]
    simp [String.ext_iff]

theorem Join_absPath (segs : List String) (hs : ∀ s ∈ segs, isSegment s = true)
    (name : String) (hn : isSegment name = true) :
    filepath.Join [absPath segs, name] = fileIn segs name := by
  have h1 : filepath.Join [absPath segs, name] = filepath.Clean (absPath segs ++ "/" ++ name) := by
    simp [filepath.Join, absPath_ne_empty, filepath.joinSep]
  have hn0 := isSegment_ne_empty name hn
  rw [h1, absPath_slash]
  split
  · rename_i h
    subst h
    rw [Clean_absPath _ (by intro x hx; simp at hx; rcases hx with hx | hx <;> simp [hx, hn])]
    simp [fileIn, List.filter_cons, hn0]
  · rw [Clean_absPath _ (by
      intro x hx
      rcases List.mem_append.mp hx with hx | hx
      · exact Or.inr (hs x hx)
      · simp at hx
        exact Or.inr (hx ▸ hn)),
      filter_segments _ (by
      intro x hx
      rcases List.mem_append.mp hx with hx | hx
      · exact hs x hx
      · simp at hx
        exact hx ▸ hn)]
    rfl

theorem Join_absPath_three (segs : List String) (hne : segs ≠ [])
    (hs : ∀ s ∈ segs, isSegment s = true) (a n : String) (ha : isSegment a = true)
    (hn : isSegment n = true) :
    filepath.Join [absPath segs, a, n] = absPath segs ++ "/" ++ a ++ "/" ++ n := by
  have h1 : filepath.Join [absPath segs, a, n] =
      filepath.Clean (absPath segs ++ "/" ++ (a ++ "/" ++ n)) := by
    simp [filepath.Join, absPath_ne_empty, filepath.joinSep]
  have h2 : absPath segs ++ "/" ++ (a ++ "/" ++ n) = absPath segs ++ "/" ++ a ++ "/" ++ n := by
    simp [String.ext_iff]
  have h3 : absPath segs ++ "/" ++ a ++ "/" ++ n = absPath ((segs ++ [a]) ++ [n]) := by
    rw [absPath_slash, if_neg hne, absPath_slash, if_neg (by simp)]
  have hall : ∀ x ∈ (segs ++ [a]) ++ [n], isSegment x = true := by
    intro x hx
    simp only [List.mem_append, List.mem_singleton] at hx
    rcases hx with (hx | hx) | hx
    · exact hs x hx
    · exact hx ▸ ha
    · exact hx ▸ hn
  rw [h1, h2, h3, Clean_absPath _ (fun x hx => Or.inr (hall x hx)), filter_segments _ hall]

namespace filepath

theorem dirPart_append_noSep (l x : List Char) (h : '/' ∉ x) :
    dirPart (l ++ '/' :: x) = l ++ ['/'] := by
  have h1 : ∀ c ∈ x.reverse, (fun c => c != '/') c = true := by
    intro c hc
    have hc2 : c ∈ x := List.mem_reverse.mp hc
    have : c ≠ '/' := fun h0 => h (h0 ▸ hc2)
    simpa using this
  have h2 : (l ++ '/' :: x).reverse = x.reverse ++ ('/' :: l.reverse) := by simp
  rw [dirPart, h2, List.dropWhile_append_of_pos h1]
  simp [List.dropWhile_cons]

end filepath

theorem Dir_absPath_snoc (segs : List String) (hs : ∀ s ∈ segs, isSegment s = true)
    (x : String) (hx : isSegment x = true) :
    filepath.Dir (absPath (segs ++ [x])) = absPath segs := by
  have hx2 := (isSegment_iff x).mp hx
  have hd : filepath.dirPart (absPath (segs ++ [x])).data = (absPath (segs ++ [""])).data := by
    rw [absPath_data, absPath_data]
    by_cases hne : segs = []
    · subst hne
      have := filepath.dirPart_append_noSep [] x.data hx2.2.1
      simpa [filepath.joinChars] using this
    · have hne2 : segs.map String.data ≠ [] := by simpa using hne
      rw [List.map_append, List.map_append, List.map_singleton, List.map_singleton,
        filepath.joinChars_snoc _ hne2, filepath.joinChars_snoc _ hne2]
      have := filepath.dirPart_append_noSep ('/' :: filepath.joinChars (segs.map String.data))
        x.data hx2.2.1
      simpa using this
  have h1 : filepath.Dir (absPath (segs ++ [x])) = filepath.Clean (absPath (segs ++ [""])) := by
    simp only [filepath.Dir, filepath.Clean, hd]
  rw [h1, Clean_absPath _ (by
    intro y hy
    rcases List.mem_append.mp hy with hy | hy
    · exact Or.inr (hs y hy)
    · simp at hy
      exact Or.inl hy)]
  rw [List.filter_append, filter_segments segs hs]
  simp

theorem absPath_snoc_length (segs : List String) (x : String) (hx : isSegment x = true) :
    (absPath segs).length < (absPath (segs ++ [x])).length := by
  have hx0 : x.data ≠ [] := ((isSegment_iff x).mp hx).1
  have hx1 : 0 < x.data.length := List.length_pos.mpr hx0
  have hl : ∀ s : String, s.length = s.data.length := fun s => rfl
  rw [hl, hl, absPath_data, absPath_data]
  by_cases hne : segs = []
  · subst hne
    simpa [filepath.joinChars] using hx1
  · have hne2 : segs.map String.data ≠ [] := by simpa using hne
    rw [List.map_append, List.map_singleton, filepath.joinChars_snoc _ hne2]
    simp

theorem walkFuel_fuel (n : Nat) :
    ∀ (m : Nat) (path : String), walkMeasure path ≤ n → walkMeasure path ≤ m →
      walkFuel n path = walkFuel m path := by
  induction n with
  | zero =>
    intro m path hn _
    have h0 : filepath.Dir path = path := by
      by_contra hne
      simp [walkMeasure, hne] at hn
    cases m with
    | zero => rfl
    | succ m => simp [walkFuel, h0]
  | succ n ih =>
    intro m path hn hm
    by_cases hd : filepath.Dir path = path
    · cases m with
      | zero => simp [walkFuel, hd]
      | succ m => simp [walkFuel, hd]
    · have h1 := walkMeasure_Dir_lt path hd
      cases m with
      | zero => simp [walkMeasure, hd] at hm
      | succ m =>
        rw [walkFuel_succ, walkFuel_succ, ih m (filepath.Dir path) (by omega) (by omega)]

/-- The directory chain of a path is the chain of its parent followed by the
path, and the path alone when the parent equals the path. -/
theorem walk_unfold (path : String) :
    walk path = (if filepath.Dir path ≠ path then walk (filepath.Dir path) else []) ++ [path] := by
  by_cases hd : filepath.Dir path = path
  · simp [walk, walkFuel, hd]
  · have h1 := walkMeasure_Dir_lt path hd
    have h2 := walkMeasure_le path
    have h3 := walkMeasure_le (filepath.Dir path)
    simp only [walk]
    rw [walkFuel_succ, walkFuel_fuel (path.length + 1) ((filepath.Dir path).length + 2)
      (filepath.Dir path) (by omega) (by omega)]

/-- The directory chain of `/s1/.../sn`: the root, `/s1`, ..., `/s1/.../sn`. -/
theorem walk_absPath (segs : List String) (hs : ∀ s ∈ segs, isSegment s = true) :
    walk (absPath segs) = segs.inits.map absPath := by
  induction segs using List.reverseRecOn with
  | nil =>
    have h : walk (absPath []) = ["/"] := by decide
    rw [h]
    rfl
  | append_singleton segs x ih =>
    have hs1 : ∀ s ∈ segs, isSegment s = true := fun s h => hs s (List.mem_append_left _ h)
    have hx : isSegment x = true := hs x (by simp)
    have hd := Dir_absPath_snoc segs hs1 x hx
    have hne : filepath.Dir (absPath (segs ++ [x])) ≠ absPath (segs ++ [x]) := by
      intro h
      have hl := absPath_snoc_length segs x hx
      rw [← h, hd] at hl
      exact Nat.lt_irrefl _ hl
    rw [walk_unfold, if_pos hne, hd, ih hs1, List.inits_append]
    simp

theorem extend_none_of_ne_nil (l : List String) (h : l ≠ []) : Slice.extend none l = some l := by
  simp [Slice.extend, h, Slice.toList]

theorem admits_of_fs (o : Options) (fsys : FS) (hi : o.includeMissing = false)
    (hf : o.fs = some fsys) : o.admits = probeOk fsys := by
  funext n
  simp [Options.admits, hi, hf]

theorem toList_appendAll_filter (o : Options) (fsys : FS) (hi : o.includeMissing = false)
    (hf : o.fs = some fsys) (names : List String)
    (ha : ∀ c ∈ names, fsys.answers c = true) :
    Slice.toList <$> o.appendAll none names = Except.ok (names.filter (probeOk fsys)) := by
  have hp : ∀ c ∈ names, o.probeReturns c = true :=
    fun c hc => probeReturns_of_answers o fsys hf c (ha c hc)
  rw [appendAll_of_probes o names hp none, map_ok, Slice.toList_extend,
    admits_of_fs o fsys hi hf]
  rfl

theorem pathCandidates_absPath (o : Options) (env : Env) (segs : List String)
    (hs : ∀ s ∈ segs, isSegment s = true) (hwd : env.Getwd = some (absPath segs)) :
    o.pathCandidates env =
      segs.inits.map (fun d => filepath.Join [absPath d, o.configNameInPath]) := by
  simp [Options.pathCandidates, hwd, walk_absPath segs hs, Function.comp]

/-! ## Rooted paths and the default filesystem -/

namespace filepath

theorem backtrack_ge_one (buf : List Char) (w : Nat) (h : 1 ≤ w) : 1 ≤ backtrack buf 1 w := by
  induction w with
  | zero => omega
  | succ w ih =>
    simp only [backtrack]
    split
    · rename_i hc
      exact ih (by omega)
    · omega

theorem head?_take_of_pos (l : List Char) (k : Nat) (h : 1 ≤ k) : (l.take k).head? = l.head? := by
  cases l with
  | nil => simp
  | cons a l =>
    cases k with
    | zero => omega
    | succ k => simp

theorem head?_append_of_head? (l k : List Char) (c : Char) (h : l.head? = some c) :
    (l ++ k).head? = some c := by
  cases l with
  | nil => simp at h
  | cons a l => simpa using h

theorem cleanStep_rooted_inv (st : CleanState) (e : List Char)
    (h : st.out.head? = some '/' ∧ st.dotdot = 1) :
    (cleanStep true st e).out.head? = some '/' ∧ (cleanStep true st e).dotdot = 1 := by
  obtain ⟨h1, h2⟩ := h
  unfold cleanStep
  split
  · exact ⟨h1, h2⟩
  · split
    · exact ⟨h1, h2⟩
    · split
      · split
        · rename_i hlen
          refine ⟨?_, h2⟩
          rw [h2] at hlen
          have hb := backtrack_ge_one st.out (st.out.length - 1) (by omega)
          show (st.out.take _).head? = some '/'
          rw [h2, head?_take_of_pos _ _ hb, h1]
        · simp only [Bool.not_true, Bool.false_eq_true, if_false]
          exact ⟨h1, h2⟩
      · refine ⟨?_, h2⟩
        show (_ ++ e).head? = some '/'
        apply head?_append_of_head?
        split
        · exact head?_append_of_head? _ _ _ h1
        · exact h1

theorem foldl_cleanStep_rooted_inv (es : List (List Char)) :
    ∀ st : CleanState, (st.out.head? = some '/' ∧ st.dotdot = 1) →
      (es.foldl (cleanStep true) st).out.head? = some '/' := by
  induction es with
  | nil => intro st h; exact h.1
  | cons e es ih => intro st h; exact ih _ (cleanStep_rooted_inv st e h)

/-- A cleaned rooted path is rooted. -/
theorem cleanChars_head? (l : List Char) : (cleanChars ('/' :: l)).head? = some '/' := by
  have h := foldl_cleanStep_rooted_inv (splitSep l) ⟨['/'], 1⟩ ⟨rfl, rfl⟩
  simp only [cleanChars, List.head?_cons, decide_True, if_true, List.tail_cons]
  rw [if_neg (by simp)]
  split
  · rename_i h0
    rw [List.length_eq_zero.mp h0] at h
    simp at h
  · exact h

theorem dirPart_head? (l : List Char) : ∃ t, dirPart ('/' :: l) = '/' :: t := by
  have h2 : ('/' :: l).reverse = l.reverse ++ ['/'] := by simp
  simp only [dirPart]
  rw [h2, List.dropWhile_append]
  split
  · exact ⟨[], by simp [List.dropWhile_cons]⟩
  · exact ⟨(l.reverse.dropWhile (fun c => c != '/')).reverse, by simp⟩

end filepath

theorem isRooted_iff (p : String) : isRooted p = true ↔ ∃ t, p.data = '/' :: t := by
  unfold isRooted
  cases h : p.data with
  | nil => simp
  | cons a t => simp

theorem isRooted_Clean (p : String) (h : isRooted p = true) : isRooted (filepath.Clean p) = true := by
  obtain ⟨t, ht⟩ := (isRooted_iff p).mp h
  simp [isRooted, filepath.Clean, ht, filepath.cleanChars_head?]

theorem isRooted_Dir (p : String) (h : isRooted p = true) : isRooted (filepath.Dir p) = true := by
  obtain ⟨t, ht⟩ := (isRooted_iff p).mp h
  obtain ⟨u, hu⟩ := filepath.dirPart_head? t
  simp [isRooted, filepath.Dir, filepath.Clean, ht, hu, filepath.cleanChars_head?]

theorem isRooted_Join (p : String) (h : isRooted p = true) (rest : List String) :
    isRooted (filepath.Join (p :: rest)) = true := by
  obtain ⟨t, ht⟩ := (isRooted_iff p).mp h
  have hne : p ≠ "" := by
    intro h0
    rw [h0] at ht
    simp at ht
  have hj : isRooted (filepath.joinSep (p :: rest)) = true := by
    cases rest with
    | nil => exact h
    | cons b rest =>
      have : filepath.joinSep (p :: b :: rest) = p ++ "/" ++ filepath.joinSep (b :: rest) := rfl
      rw [this, isRooted_iff]
      exact ⟨t ++ '/' :: (filepath.joinSep (b :: rest)).data, by simp [ht]⟩
  simp only [filepath.Join, ne_eq, hne, not_false_eq_true, if_true]
  exact isRooted_Clean _ hj

theorem isRooted_walkFuel (n : Nat) :
    ∀ path : String, isRooted path = true → ∀ d ∈ walkFuel n path, isRooted d = true := by
  induction n with
  | zero =>
    intro path h d hd
    simp only [walkFuel, List.mem_singleton] at hd
    exact hd ▸ h
  | succ n ih =>
    intro path h d hd
    rw [walkFuel_succ, List.mem_append] at hd
    rcases hd with hd | hd
    · split at hd
      · exact ih _ (isRooted_Dir path h) d hd
      · simp at hd
    · simp only [List.mem_singleton] at hd
      exact hd ▸ h

theorem ValidPath_rooted (name : String) (h : isRooted name = true) :
    iofs.ValidPath name = false := by
  obtain ⟨t, ht⟩ := (isRooted_iff name).mp h
  have hne : name ≠ "." := by
    intro h0
    rw [h0] at ht
    simp at ht
  simp [iofs.ValidPath, hne, ht, filepath.splitSep]

theorem DirFS_rooted (osStat : String → Except FsError FileInfo) (dir name : String)
    (h : isRooted name = true) : probeOk (os.DirFS osStat dir) name = false := by
  by_cases hd : dir = ""
  · simp [probeOk, os.DirFS, hd]
  · simp [probeOk, os.DirFS, ValidPath_rooted name h, hd]

theorem statInfo_answers (r : Except FsError FileInfo) :
    os.statInfo r ≠ none ∧ os.statInfo r ≠ some (Except.ok none) := by
  cases r <;> simp [os.statInfo]

/-- The filesystem `os.DirFS` answers every probe. -/
theorem DirFS_answers (osStat : String → Except FsError FileInfo) (dir name : String) :
    (os.DirFS osStat dir).answers name = true := by
  have h : (os.DirFS osStat dir).Stat name ≠ none ∧
      (os.DirFS osStat dir).Stat name ≠ some (Except.ok none) := by
    simp only [os.DirFS]
    split
    · simp
    · split
      · simp
      · split
        · simp
        · split
          · exact statInfo_answers _
          · exact statInfo_answers _
  unfold FS.answers
  cases hs : (os.DirFS osStat dir).Stat name with
  | none => exact absurd hs h.1
  | some a =>
    cases a with
    | error e => rfl
    | ok r =>
      cases r with
      | none => exact absurd hs h.2
      | some info => rfl

/-- With the filesystem installed by `New` (`os.DirFS(root)`, any `root`) a
rooted candidate is never admitted, whatever the operating system holds, so
for every absolute working directory `EnumeratePath()` returns nothing. -/
theorem default_filesystem_rejects_rooted (root : String)
    (osStat : String → Except FsError FileInfo) (appName : String) (env : Env) (wd : String)
    (hwd : env.Getwd = some wd) (hr : isRooted wd = true) :
    (∀ name, isRooted name = true → (New root osStat appName).admits name = false) ∧
      (New root osStat appName).EnumeratePath env = Except.ok none := by
  have hadm : ∀ name, isRooted name = true → (New root osStat appName).admits name = false := by
    intro name hn
    simp [Options.admits, New, DirFS_rooted osStat root name hn]
  have hret : ∀ name, (New root osStat appName).probeReturns name = true := by
    intro name
    simp [Options.probeReturns, New, DirFS_answers]
  refine ⟨hadm, ?_⟩
  rw [EnumeratePath_eq, appendAll_of_probes _ _ (fun c _ => hret c)]
  have hf : (Options.pathCandidates (New root osStat appName) env).filter
      (New root osStat appName).admits = [] := by
    apply List.filter_eq_nil_iff.mpr
    intro c hc
    simp only [Options.pathCandidates, hwd, List.mem_map] at hc
    obtain ⟨d, hd, rfl⟩ := hc
    have hd2 := isRooted_walkFuel _ wd hr d hd
    simp [hadm _ (isRooted_Join d hd2 _)]
  rw [hf, Slice.extend_nil]

/-! ## The library functions on the test tables of the Go distribution -/

/-- The function `Clean` on the table of `path/filepath`'s `TestClean`. -/
theorem Clean_table :
    ["abc", "abc/def", "a/b/c", ".", "..", "../..", "../../abc", "/abc", "/", "",
      "abc/", "abc/def/", "a/b/c/", "./", "../", "../../", "/abc/",
      "abc//def//ghi", "abc//", "abc/./def", "/./abc/def", "abc/.",
      "abc/def/ghi/../jkl", "abc/def/../ghi/../jkl", "abc/def/..", "abc/def/../..",
      "/abc/def/../..", "abc/def/../../..", "/abc/def/../../..",
      "abc/def/../../../ghi/jkl/../../../mno", "/../abc", "a/../b:/../../c",
      "abc/./../def", "abc//./../def", "abc/../../././../def"].map filepath.Clean =
    ["abc", "abc/def", "a/b/c", ".", "..", "../..", "../../abc", "/abc", "/", ".",
      "abc", "abc/def", "a/b/c", ".", "..", "../..", "/abc",
      "abc/def/ghi", "abc", "abc/def", "/abc/def", "abc",
      "abc/def/jkl", "abc/jkl", "abc", ".",
      "/", "..", "/",
      "../../mno", "/abc", "../c",
      "def", "def", "../../def"] := by
  decide

/-- The function `Dir` on the table of `path/filepath`'s `TestDir`. -/
theorem Dir_table :
    ["", ".", "/.", "/", "/foo", "x/", "abc", "abc/def", "a/b/.x", "a/b/c.", "a/b/c.x"].map
      filepath.Dir =
    [".", ".", "/", "/", "/", "x", ".", "abc", "a/b", "a/b", "a/b"] := by
  decide

/-- The function `Join` on the table of `path/filepath`'s `TestJoin`. -/
theorem Join_table :
    [[], [""], ["/"], ["a"], ["a", "b"], ["a", ""], ["", "b"], ["/", "a"], ["/", "a/b"],
      ["/", ""], ["/a", "b"], ["a", "/b"], ["/a", "/b"], ["a/", "b"], ["a/", ""], ["", ""],
      ["/", "a", "b"], ["//", "a"]].map filepath.Join =
    ["", "", "/", "a", "a/b", "a", "b", "/a", "/a/b",
      "/", "/a/b", "a/b", "/a/b", "a/b", "a", "",
      "/a/b", "/a"] := by
  decide

/-- The function `ValidPath` on the table of `io/fs`'s `TestValidPath`. -/
theorem ValidPath_table :
    [".", "x", "x/y"].map iofs.ValidPath = [true, true, true] ∧
    ["", "..", "/", "x/", "/x", "x/y/", "/x/y", "./", "./x", "x/.", "x/./y", "../", "../x",
      "x/..", "x/../y", "x//y"].map iofs.ValidPath = List.replicate 16 false := by
  decide

/-! ## The directory chain ends at the root -/

theorem walk_ne_nil (path : String) : walk path ≠ [] := by
  rw [walk_unfold]
  simp

theorem walk_fixed (path : String) (h : filepath.Dir path = path) : walk path = [path] := by
  rw [walk_unfold]
  simp [h]

theorem walk_step (path : String) (h : filepath.Dir path ≠ path) :
    walk path = walk (filepath.Dir path) ++ [path] := by
  rw [walk_unfold, if_pos h]

theorem walkDepth_fixed (path : String) (h : filepath.Dir path = path) : walkDepth path = 0 := by
  simp [walkDepth, walk_fixed path h]

theorem walkDepth_step (path : String) (h : filepath.Dir path ≠ path) :
    walkDepth path = walkDepth (filepath.Dir path) + 1 := by
  have h1 := List.length_pos.mpr (walk_ne_nil (filepath.Dir path))
  simp only [walkDepth, walk_step path h, List.length_append, List.length_singleton]
  omega

theorem range_succ_map_reverse (f : Nat → String) (k : Nat) :
    ((List.range (k + 1 + 1)).map f).reverse =
      ((List.range (k + 1)).map (fun i => f (i + 1))).reverse ++ [f 0] := by
  rw [List.range_succ_eq_map (k + 1)]
  simp [List.map_map, Function.comp]

/-- The walk from a path whose bound is at most `n`: its depth is at most `n`,
the directory reached after that many steps is its own parent, no earlier one
is, and the chain lists the directories reached, the last one first. -/
theorem walk_chain (n : Nat) :
    ∀ path : String, walkMeasure path ≤ n →
      walkDepth path ≤ n ∧
      filepath.Dir (filepath.Dir^[walkDepth path] path) = filepath.Dir^[walkDepth path] path ∧
      (∀ i, i < walkDepth path →
        filepath.Dir (filepath.Dir^[i] path) ≠ filepath.Dir^[i] path) ∧
      walk path =
        ((List.range (walkDepth path + 1)).map (fun i => filepath.Dir^[i] path)).reverse := by
  induction n with
  | zero =>
    intro path h
    have hd : filepath.Dir path = path := by
      by_contra hne
      simp [walkMeasure, hne] at h
    rw [walkDepth_fixed path hd]
    refine ⟨Nat.le_refl 0, hd, fun i hi => absurd hi (Nat.not_lt_zero i), ?_⟩
    simp [walk_fixed path hd]
  | succ n ih =>
    intro path h
    by_cases hd : filepath.Dir path = path
    · rw [walkDepth_fixed path hd]
      refine ⟨Nat.zero_le _, hd, fun i hi => absurd hi (Nat.not_lt_zero i), ?_⟩
      simp [walk_fixed path hd]
    · have hlt := walkMeasure_Dir_lt path hd
      obtain ⟨h1, h2, h3, h4⟩ := ih (filepath.Dir path) (by omega)
      rw [walkDepth_step path hd]
      refine ⟨by omega, ?_, ?_, ?_⟩
      · rw [Function.iterate_succ_apply]
        exact h2
      · intro i hi
        cases i with
        | zero => simpa using hd
        | succ i =>
          rw [Function.iterate_succ_apply]
          exact h3 i (by omega)
      · rw [walk_step path hd, h4, range_succ_map_reverse]
        simp [Function.iterate_succ_apply]

theorem count_root_chain (f : Nat → String) (k : Nat) (hfix : filepath.Dir (f k) = f k)
    (hne : ∀ i, i < k → filepath.Dir (f i) ≠ f i) :
    (((List.range (k + 1)).map f).reverse).count (f k) = 1 := by
  rw [List.count_reverse, List.range_succ, List.map_append, List.count_append]
  have h0 : ((List.range k).map f).count (f k) = 0 := by
    apply List.count_eq_zero.mpr
    intro hmem
    obtain ⟨i, hi, heq⟩ := List.mem_map.mp hmem
    have hik : i < k := List.mem_range.mp hi
    apply hne i hik
    rw [heq]
    exact hfix
  simp [h0]

theorem appendAll_ne_stackOverflow (o : Options) (files : Slice) (names : List String) :
    o.appendAll files names ≠ Except.error Panic.stackOverflow := by
  rw [appendAll_eq]
  split
  · simp
  · intro h
    exact firstPanic_ne_stackOverflow o names (Except.error.inj h)

/-! ## Dependence of the operations on the configuration -/

theorem appendIfFile_congr (o o2 : Options) (h1 : o.includeMissing = o2.includeMissing)
    (h2 : o.fs = o2.fs) (files : Slice) (name : String) :
    o.appendIfFile files name = o2.appendIfFile files name := by
  simp [Options.appendIfFile, h1, h2]

theorem appendAll_congr (o o2 : Options) (h1 : o.includeMissing = o2.includeMissing)
    (h2 : o.fs = o2.fs) (files : Slice) (names : List String) :
    o.appendAll files names = o2.appendAll files names := by
  have h : (fun files name => o.appendIfFile files name) =
      (fun files name => o2.appendIfFile files name) := by
    funext files name
    exact appendIfFile_congr o o2 h1 h2 files name
  simp [Options.appendAll, h]

theorem toList_appendAll (o : Options) (files : Slice) (names : List String) :
    Slice.toList <$> o.appendAll files names =
      (fun l => files.toList ++ l) <$> (Slice.toList <$> o.appendAll none names) := by
  rw [appendAll_eq, appendAll_eq]
  cases names.all o.probeReturns with
  | true =>
    simp only [if_true, map_ok, Slice.toList_extend]
    rfl
  | false => simp [map_error]

theorem appendAll_none_admitted (o : Options) (names : List String)
    (hp : ∀ c ∈ names, o.probeReturns c = true)
    (h : ∀ c ∈ names, o.admits c = false) : o.appendAll none names = Except.ok none := by
  rw [appendAll_of_probes o names hp]
  have hf : names.filter o.admits = [] := by
    apply List.filter_eq_nil_iff.mpr
    intro c hc
    simp [h c hc]
  rw [hf, Slice.extend_nil]

theorem filteredBy_appendAll (o : Options) (fsys : FS) (hf : o.fs = some fsys)
    (names : List String) (ha : ∀ c ∈ names, fsys.answers c = true) :
    filteredBy fsys ((o.IncludeMissing false).appendAll none names)
      ((o.IncludeMissing true).appendAll none names) := by
  have h1 : ∀ c ∈ names, (o.IncludeMissing false).probeReturns c = true :=
    fun c hc => probeReturns_of_answers (o.IncludeMissing false) fsys hf c (ha c hc)
  have h2 : (o.IncludeMissing false).admits = probeOk fsys :=
    admits_of_fs (o.IncludeMissing false) fsys rfl hf
  refine ⟨_, _, appendAll_of_probes _ names h1 none,
    appendAll_includeMissing (o.IncludeMissing true) rfl names, ?_, ?_⟩
  · rw [Slice.toList_extend, Slice.toList_extend, h2]
    rfl
  · rw [Slice.toList_extend, Slice.toList_extend, h2]
    exact List.filter_sublist _

theorem returns_iff_probeReturns (o : Options) (env : Env) :
    ((returns (o.EnumerateSystem env) ↔
        ∀ c ∈ o.systemCandidates env, o.probeReturns c = true) ∧
      (returns (o.EnumerateUser env) ↔ ∀ c ∈ o.userCandidates env, o.probeReturns c = true) ∧
      (returns (o.EnumeratePath env) ↔ ∀ c ∈ o.pathCandidates env, o.probeReturns c = true) ∧
      (returns (o.Enumerate env) ↔ ∀ c ∈ o.candidates env, o.probeReturns c = true)) ∧
    (o.includeMissing = true →
      returns (o.EnumerateSystem env) ∧ returns (o.EnumerateUser env) ∧
        returns (o.EnumeratePath env) ∧ returns (o.Enumerate env)) ∧
    (∀ fsys, o.fs = some fsys → (∀ name, fsys.answers name = true) →
      returns (o.EnumerateSystem env) ∧ returns (o.EnumerateUser env) ∧
        returns (o.EnumeratePath env) ∧ returns (o.Enumerate env)) := by
  rw [Enumerate_eq, EnumerateSystem_eq, EnumerateUser_eq, EnumeratePath_eq]
  refine ⟨⟨returns_appendAll_iff o none _, returns_appendAll_iff o none _,
    returns_appendAll_iff o none _, returns_appendAll_iff o none _⟩, fun hi => ?_,
    fun fsys hf ha => ?_⟩
  · have hp : ∀ c, o.probeReturns c = true := by
      intro c
      simp [Options.probeReturns, hi]
    exact ⟨(returns_appendAll_iff o none _).mpr (fun c _ => hp c),
      (returns_appendAll_iff o none _).mpr (fun c _ => hp c),
      (returns_appendAll_iff o none _).mpr (fun c _ => hp c),
      (returns_appendAll_iff o none _).mpr (fun c _ => hp c)⟩
  · have hp : ∀ c, o.probeReturns c = true :=
      fun c => probeReturns_of_answers o fsys hf c (ha c)
    exact ⟨(returns_appendAll_iff o none _).mpr (fun c _ => hp c),
      (returns_appendAll_iff o none _).mpr (fun c _ => hp c),
      (returns_appendAll_iff o none _).mpr (fun c _ => hp c),
      (returns_appendAll_iff o none _).mpr (fun c _ => hp c)⟩

/-! ## The query methods leave the enumerator as it was -/

theorem appendIfFileS_eq (o : Options) (files : Slice) (name : String) :
    o.appendIfFileS files name = (fun r => (r, o)) <$> o.appendIfFile files name := by
  cases hi : o.includeMissing with
  | true => simp [Options.appendIfFileS, Options.appendIfFile, hi, map_ok]
  | false =>
    cases hs : iofs.Stat o.fs name with
    | error p => simp [Options.appendIfFileS, Options.appendIfFile, hi, hs, map_error]
    | ok r =>
      cases r with
      | error e => simp [Options.appendIfFileS, Options.appendIfFile, hi, hs, map_ok]
      | ok info =>
        cases info with
        | none => simp [Options.appendIfFileS, Options.appendIfFile, hi, hs, map_error]
        | some info =>
          cases hd : info.IsDir <;>
            simp [Options.appendIfFileS, Options.appendIfFile, hi, hs, hd, map_ok]

theorem foldlM_appendIfFileS (o : Options) (l : List String) :
    ∀ files : Slice,
      l.foldlM
        (fun (st : Slice × Options) s =>
          st.2.appendIfFileS st.1 (filepath.Join [s, st.2.appName, st.2.configName]))
        (files, o) =
      (fun r => (r, o)) <$> l.foldlM
        (fun files s => o.appendIfFile files (filepath.Join [s, o.appName, o.configName]))
        files := by
  induction l with
  | nil => intro files; rfl
  | cons s l ih =>
    intro files
    rw [List.foldlM_cons, List.foldlM_cons, appendIfFileS_eq]
    cases o.appendIfFile files (filepath.Join [s, o.appName, o.configName]) with
    | error p => rfl
    | ok r => exact ih r

theorem appendSystemS_eq (o : Options) (env : Env) (files : Slice) :
    o.appendSystemS env files = (fun r => (r, o)) <$> o.appendSystem env files :=
  foldlM_appendIfFileS o env.systemConfigs files

theorem appendUserS_eq (o : Options) (env : Env) (files : Slice) :
    o.appendUserS env files = (fun r => (r, o)) <$> o.appendUser env files := by
  unfold Options.appendUserS Options.appendUser
  cases env.UserConfigDir with
  | none => rfl
  | some d => exact appendIfFileS_eq o files _

theorem appendPathFromRootFuelS_eq (o : Options) (n : Nat) :
    ∀ (files : Slice) (path : String),
      o.appendPathFromRootFuelS n files path =
        (fun r => (r, o)) <$> o.appendPathFromRootFuel n files path := by
  induction n with
  | zero => intro files path; rfl
  | succ n ih =>
    intro files path
    rw [appendPathFromRootFuel_succ]
    simp only [Options.appendPathFromRootFuelS]
    by_cases hd : filepath.Dir path = path
    · simp only [hd, ne_eq, not_true_eq_false, if_false, bind_ok]
      exact appendIfFileS_eq o files _
    · simp only [hd, ne_eq, not_false_eq_true, if_true, ih]
      cases o.appendPathFromRootFuel n files (filepath.Dir path) with
      | error p => rfl
      | ok r => exact appendIfFileS_eq o r _

theorem appendPathS_eq (o : Options) (env : Env) (files : Slice) :
    o.appendPathS env files = (fun r => (r, o)) <$> o.appendPath env files := by
  unfold Options.appendPathS Options.appendPath
  cases env.Getwd with
  | none => rfl
  | some wd => exact appendPathFromRootFuelS_eq o _ files wd

theorem EnumerateS_eq (o : Options) (env : Env) :
    o.EnumerateS env = (fun r => (r, o)) <$> o.Enumerate env := by
  simp only [Options.EnumerateS, Options.Enumerate, appendSystemS_eq]
  cases o.appendSystem env none with
  | error p => rfl
  | ok r1 =>
    simp only [map_ok, bind_ok, appendUserS_eq]
    cases o.appendUser env r1 with
    | error p => rfl
    | ok r2 =>
      simp only [map_ok, bind_ok]
      exact appendPathS_eq o env r2

theorem callS_eq (q : Query) (env : Env) (o : Options) :
    q.callS env o = (fun r => (r, o)) <$> q.eval o env := by
  cases q
  · exact appendSystemS_eq o env none
  · exact appendUserS_eq o env none
  · exact appendPathS_eq o env none
  · exact EnumerateS_eq o env

theorem runQueriesS_eq (env : Env) (o : Options) (qs : List Query) :
    runQueriesS env o qs = (fun rs => (rs, o)) <$> evalQueries env o qs := by
  induction qs with
  | nil => rfl
  | cons q qs ih =>
    simp only [runQueriesS, evalQueries, callS_eq]
    cases q.eval o env with
    | error p => rfl
    | ok r =>
      simp only [map_ok, bind_ok, ih]
      cases evalQueries env o qs with
      | error p => rfl
      | ok rs => rfl

theorem walk_mem_fixed_or_le (n : Nat) :
    ∀ q : String, walkMeasure q ≤ n →
      ∀ d ∈ walk q, filepath.Dir d = d ∨ d.length ≤ q.length := by
  induction n with
  | zero =>
    intro q h d hd
    have hq : filepath.Dir q = q := by
      by_contra hne
      simp [walkMeasure, hne] at h
    rw [walk_fixed q hq, List.mem_singleton] at hd
    exact Or.inl (hd ▸ hq)
  | succ n ih =>
    intro q h d hd
    by_cases hq : filepath.Dir q = q
    · rw [walk_fixed q hq, List.mem_singleton] at hd
      exact Or.inl (hd ▸ hq)
    · have hlt := walkMeasure_Dir_lt q hq
      rw [walk_step q hq, List.mem_append, List.mem_singleton] at hd
      rcases hd with hd | hd
      · rcases ih (filepath.Dir q) (by omega) d hd with h1 | h1
        · exact Or.inl h1
        · rcases Dir_fixed_or_shorter q with h2 | h2
          · rw [walk_fixed _ h2, List.mem_singleton] at hd
            exact Or.inl (hd ▸ h2)
          · exact Or.inr (by omega)
      · exact Or.inr (by rw [hd])

theorem not_mem_walk_Dir (q : String) (hq : filepath.Dir q ≠ q) : q ∉ walk (filepath.Dir q) := by
  intro hmem
  rcases Dir_fixed_or_shorter q with h2 | h2
  · rw [walk_fixed _ h2, List.mem_singleton] at hmem
    exact hq hmem.symm
  · rcases walk_mem_fixed_or_le _ (filepath.Dir q) (Nat.le_refl _) q hmem with h1 | h1
    · exact hq h1
    · omega

/-- No directory string occurs twice in the walk. -/
theorem walk_nodup_aux (n : Nat) :
    ∀ q : String, walkMeasure q ≤ n → (walk q).Nodup := by
  induction n with
  | zero =>
    intro q h
    have hq : filepath.Dir q = q := by
      by_contra hne
      simp [walkMeasure, hne] at h
    rw [walk_fixed q hq]
    exact List.nodup_singleton q
  | succ n ih =>
    intro q h
    by_cases hq : filepath.Dir q = q
    · rw [walk_fixed q hq]
      exact List.nodup_singleton q
    · have hlt := walkMeasure_Dir_lt q hq
      rw [walk_step q hq]
      refine List.nodup_append.mpr ⟨ih _ (by omega), List.nodup_singleton q, ?_⟩
      intro a ha hb
      rw [List.mem_singleton] at hb
      exact not_mem_walk_Dir q hq (hb ▸ ha)

theorem walk_nodup (q : String) : (walk q).Nodup :=
  walk_nodup_aux _ q (Nat.le_refl _)

/-! ## Cleaning is idempotent -/

namespace filepath

theorem backtrack_zero (buf : List Char) (D : Nat) : backtrack buf D 0 = 0 := rfl

theorem backtrack_succ (buf : List Char) (D w : Nat) :
    backtrack buf D (w + 1) =
      if w + 1 > D ∧ buf.get? (w + 1) ≠ some '/' then backtrack buf D w else w + 1 := rfl

/-- The inner loop of the `..` case goes down from `d + k` to `d` when it
passes no separator above `d` and stops at `d`. -/
theorem backtrack_scan (buf : List Char) (D d : Nat) (k : Nat) :
    (∀ i, d < i → i ≤ d + k → D < i ∧ buf.get? i ≠ some '/') →
    ¬ (D < d ∧ buf.get? d ≠ some '/') →
    backtrack buf D (d + k) = d := by
  induction k with
  | zero =>
    intro _ hstop
    cases d with
    | zero => rfl
    | succ d =>
      rw [Nat.add_zero, backtrack_succ, if_neg hstop]
  | succ k ih =>
    intro hup hstop
    have h1 := hup (d + k + 1) (by omega) (by omega)
    rw [← Nat.add_assoc, backtrack_succ, if_pos h1]
    exact ih (fun i hi hi2 => hup i hi (by omega)) hstop

theorem getElem?_ne_sep (x : List Char) (hx : '/' ∉ x) (j : Nat) : x[j]? ≠ some '/' := by
  intro h
  exact hx (List.getElem?_mem h)

/-- Backtracking over a last element that follows a separator. -/
theorem backtrack_last_sep (A x : List Char) (D : Nat) (hxs : '/' ∉ x) (hD : D ≤ A.length) :
    (A ++ '/' :: x).take (backtrack (A ++ '/' :: x) D ((A ++ '/' :: x).length - 1)) = A := by
  have hlen : (A ++ '/' :: x).length - 1 = A.length + x.length := by simp
  have hb : backtrack (A ++ '/' :: x) D (A.length + x.length) = A.length := by
    apply backtrack_scan
    · intro i hi hi2
      refine ⟨by omega, ?_⟩
      rw [List.get?_eq_getElem?, List.getElem?_append_right (by omega)]
      have : i - A.length = (i - A.length - 1) + 1 := by omega
      rw [this, List.getElem?_cons_succ]
      exact getElem?_ne_sep x hxs _
    · intro h
      apply h.2
      rw [List.get?_eq_getElem?, List.getElem?_append_right (Nat.le_refl _)]
      simp
  rw [hlen, hb, List.take_left]

/-- Backtracking over a last element that starts at the index `dotdot`. -/
theorem backtrack_last_base (A x : List Char) (hx : x ≠ []) (hxs : '/' ∉ x) :
    (A ++ x).take (backtrack (A ++ x) A.length ((A ++ x).length - 1)) = A := by
  have hpos : 0 < x.length := List.length_pos.mpr hx
  have hlen : (A ++ x).length - 1 = A.length + (x.length - 1) := by
    simp only [List.length_append]
    omega
  have hb : backtrack (A ++ x) A.length (A.length + (x.length - 1)) = A.length := by
    apply backtrack_scan
    · intro i hi hi2
      refine ⟨hi, ?_⟩
      rw [List.get?_eq_getElem?, List.getElem?_append_right (by omega)]
      exact getElem?_ne_sep x hxs _
    · intro h
      exact Nat.lt_irrefl _ h.1
  rw [hlen, hb, List.take_left]

theorem joinChars_append (a b : List (List Char)) (ha : a ≠ []) (hb : b ≠ []) :
    joinChars (a ++ b) = joinChars a ++ '/' :: joinChars b := by
  induction a with
  | nil => exact absurd rfl ha
  | cons x a ih =>
    cases a with
    | nil =>
      cases b with
      | nil => exact absurd rfl hb
      | cons y b => rfl
    | cons z a =>
      rw [List.cons_append, List.cons_append, joinChars_cons_cons, ← List.cons_append,
        ih (by simp), joinChars_cons_cons]
      simp

theorem joinChars_length_le (a b : List (List Char)) :
    (joinChars a).length ≤ (joinChars (a ++ b)).length := by
  by_cases ha : a = []
  · subst ha
    simp [joinChars]
  · by_cases hb : b = []
    · subst hb
      simp
    · rw [joinChars_append a b ha hb]
      simp

theorem joinChars_length_lt (a b : List (List Char)) (hb : b ≠ []) (hne : ∀ e ∈ b, e ≠ []) :
    (joinChars a).length < (joinChars (a ++ b)).length := by
  by_cases ha : a = []
  · subst ha
    have h : joinChars b ≠ [] := fun h => hb ((joinChars_eq_nil b hne).mp h)
    simpa [joinChars] using List.length_pos.mpr h
  · rw [joinChars_append a b ha hb]
    simp

end filepath

namespace filepath

theorem cleanStep_dot (r : Bool) (st : CleanState) : cleanStep r st ['.'] = st := by
  simp [cleanStep]

theorem cleanStep_dotdot (r : Bool) (st : CleanState) :
    cleanStep r st dotdotElem =
      if st.out.length > st.dotdot then
        { st with out := st.out.take (backtrack st.out st.dotdot (st.out.length - 1)) }
      else if !r then
        { out := (if st.out.length > 0 then st.out ++ ['/'] else st.out) ++ ['.', '.'],
          dotdot := ((if st.out.length > 0 then st.out ++ ['/'] else st.out) ++
            ['.', '.']).length }
      else st := by
  simp [cleanStep, dotdotElem]

theorem dotdotElem_ne_nil : dotdotElem ≠ [] := by decide

theorem dotdotElem_noSep : '/' ∉ dotdotElem := by decide

theorem cleanOut_snoc (r : Bool) (els : List (List Char)) (hne : els ≠ []) (x : List Char) :
    cleanOut r (els ++ [x]) = cleanOut r els ++ '/' :: x := by
  simp [cleanOut, joinChars_snoc els hne]

theorem cleanOut_length_ne (r : Bool) (els : List (List Char)) (hne : els ≠ [])
    (h : ∀ e ∈ els, e ≠ []) : (cleanOut r els).length ≠ (if r then 1 else 0) := by
  have hj : joinChars els ≠ [] := fun hj => hne ((joinChars_eq_nil els h).mp hj)
  cases r <;> simp [cleanOut, hj]

/-- A real path element is appended, after a separator when it is not the
first element. -/
theorem cleanStep_seg (r : Bool) (els : List (List Char)) (hne : ∀ e ∈ els, e ≠ [])
    (D : Nat) (e : List Char) (he : segChars e) :
    cleanStep r ⟨cleanOut r els, D⟩ e = ⟨cleanOut r (els ++ [e]), D⟩ := by
  obtain ⟨h1, _, h3, h4⟩ := he
  by_cases hels : els = []
  · subst hels
    cases r <;> simp [cleanStep, cleanOut, joinChars, h1, h3, h4]
  · have hl := cleanOut_length_ne r els hels hne
    rw [cleanOut_snoc r els hels]
    cases r
    · simp only [Bool.false_eq_true, if_false] at hl
      simp [cleanStep, h1, h3, h4, hl]
    · simp only [if_true] at hl
      simp [cleanStep, h1, h3, h4, hl]

/-- An element `..` that cannot backtrack is appended when the path is not
rooted. -/
theorem cleanStep_dotdot_append (els : List (List Char)) (hne : ∀ e ∈ els, e ≠ []) :
    cleanStep false ⟨cleanOut false els, (cleanOut false els).length⟩ dotdotElem =
      ⟨cleanOut false (els ++ [dotdotElem]),
        (cleanOut false (els ++ [dotdotElem])).length⟩ := by
  rw [cleanStep_dotdot]
  simp only [Nat.lt_irrefl, gt_iff_lt, if_false, Bool.not_false, if_true]
  by_cases hels : els = []
  · subst hels
    simp [cleanOut, joinChars, dotdotElem]
  · have hl := cleanOut_length_ne false els hels hne
    simp only [Bool.false_eq_true, if_false] at hl
    have hpos : 0 < (cleanOut false els).length := Nat.pos_of_ne_zero hl
    rw [cleanOut_snoc false els hels]
    simp [hpos, dotdotElem]

theorem cleanStep_dotdot_root : cleanStep true ⟨['/'], 1⟩ dotdotElem = ⟨['/'], 1⟩ := by
  decide

/-- An element `..` that can backtrack removes the last element. -/
theorem cleanStep_dotdot_back (r : Bool) (U done : List (List Char)) (x : List Char)
    (hU : ∀ e ∈ U, e ≠ []) (hd : ∀ e ∈ done, e ≠ []) (hx : x ≠ []) (hxs : '/' ∉ x) :
    cleanStep r ⟨cleanOut r (U ++ (done ++ [x])), (cleanOut r U).length⟩ dotdotElem =
      ⟨cleanOut r (U ++ done), (cleanOut r U).length⟩ := by
  have hlt : (cleanOut r U).length < (cleanOut r (U ++ (done ++ [x]))).length := by
    have := joinChars_length_lt U (done ++ [x]) (by simp) (by
      intro e he
      rcases List.mem_append.mp he with he | he
      · exact hd e he
      · simp at he
        exact he ▸ hx)
    simp only [cleanOut, List.length_append]
    omega
  rw [cleanStep_dotdot]
  simp only [gt_iff_lt, hlt, if_true]
  congr 1
  by_cases hL : U ++ done = []
  · have hU0 : U = [] := (List.append_eq_nil.mp hL).1
    have hd0 : done = [] := (List.append_eq_nil.mp hL).2
    subst hU0
    subst hd0
    have hb := backtrack_last_base (if r then ['/'] else []) x hx hxs
    simpa [cleanOut, joinChars] using hb
  · have hle : (cleanOut r U).length ≤ (cleanOut r (U ++ done)).length := by
      have := joinChars_length_le U done
      simp only [cleanOut, List.length_append]
      omega
    have hb := backtrack_last_sep (cleanOut r (U ++ done)) x (cleanOut r U).length hxs hle
    rw [← List.append_assoc, cleanOut_snoc r (U ++ done) hL]
    exact hb

theorem replicate_ne_nil_mem (m : Nat) : ∀ e ∈ List.replicate m dotdotElem, e ≠ [] := by
  intro e he
  rw [(List.mem_replicate.mp he).2]
  exact dotdotElem_ne_nil

/-- Every round of the main loop of `Clean` keeps the form of the state. -/
theorem CleanInv_step (r : Bool) (st : CleanState) (e : List Char) (hsep : '/' ∉ e)
    (h : CleanInv r st) : CleanInv r (cleanStep r st e) := by
  obtain ⟨m, done, hm, hd, rfl⟩ := h
  have hdne : ∀ x ∈ done, x ≠ [] := fun x hx => (hd x hx).1
  by_cases h1 : e = []
  · subst h1
    rw [cleanStep_nil]
    exact ⟨m, done, hm, hd, rfl⟩
  by_cases h2 : e = ['.']
  · subst h2
    rw [cleanStep_dot]
    exact ⟨m, done, hm, hd, rfl⟩
  by_cases h3 : e = dotdotElem
  · subst h3
    rcases List.eq_nil_or_concat done with h0 | ⟨L, b, h0⟩
    · subst h0
      cases r
      · refine ⟨m + 1, [], by simp, by simp, ?_⟩
        have hs := cleanStep_dotdot_append (List.replicate m dotdotElem) (replicate_ne_nil_mem m)
        simp only [List.append_nil]
        rw [hs, List.replicate_succ']
      · have hm0 : m = 0 := hm rfl
        subst hm0
        refine ⟨0, [], by simp, by simp, ?_⟩
        simpa [cleanOut, joinChars] using cleanStep_dotdot_root
    · subst h0
      have hb : segChars b := hd b (by simp)
      refine ⟨m, L, hm, fun x hx => hd x (by simp [hx]), ?_⟩
      rw [List.concat_eq_append] at *
      exact cleanStep_dotdot_back r (List.replicate m dotdotElem) L b (replicate_ne_nil_mem m)
        (fun x hx => hdne x (by simp [hx])) hb.1 hb.2.1
  · have he : segChars e := ⟨h1, hsep, h2, h3⟩
    refine ⟨m, done ++ [e], hm, ?_, ?_⟩
    · intro x hx
      rcases List.mem_append.mp hx with hx | hx
      · exact hd x hx
      · simp at hx
        exact hx ▸ he
    · rw [← List.append_assoc]
      exact cleanStep_seg r (List.replicate m dotdotElem ++ done) (by
        intro x hx
        rcases List.mem_append.mp hx with hx | hx
        · exact replicate_ne_nil_mem m x hx
        · exact hdne x hx) _ e he

theorem CleanInv_foldl (r : Bool) (es : List (List Char)) (hsep : ∀ e ∈ es, '/' ∉ e) :
    ∀ st : CleanState, CleanInv r st → CleanInv r (es.foldl (cleanStep r) st) := by
  induction es with
  | nil => intro st h; exact h
  | cons e es ih =>
    intro st h
    exact ih (fun x hx => hsep x (List.mem_cons_of_mem _ hx)) _
      (CleanInv_step r st e (hsep e (by simp)) h)

theorem pushChar_noSep (c : Char) (hc : c ≠ '/') (es : List (List Char))
    (h : ∀ e ∈ es, '/' ∉ e) : ∀ e ∈ pushChar c es, '/' ∉ e := by
  cases es with
  | nil =>
    intro e he
    simp only [pushChar, List.mem_singleton] at he
    subst he
    simpa using hc.symm
  | cons a es =>
    intro e he
    simp only [pushChar, List.mem_cons] at he
    rcases he with he | he
    · subst he
      intro hm
      rcases List.mem_cons.mp hm with hm | hm
      · exact hc hm.symm
      · exact h a (by simp) hm
    · exact h e (by simp [he])

theorem splitSep_elems_noSep (l : List Char) : ∀ e ∈ splitSep l, '/' ∉ e := by
  induction l with
  | nil => simp [splitSep]
  | cons c cs ih =>
    simp only [splitSep]
    split
    · intro e he
      rcases List.mem_cons.mp he with he | he
      · subst he
        simp
      · exact ih e he
    · rename_i hc
      exact pushChar_noSep c hc _ ih

theorem cleanLoop_inv (path : List Char) :
    CleanInv (decide (path.head? = some '/')) (cleanLoop path) := by
  unfold cleanLoop
  apply CleanInv_foldl _ _ (splitSep_elems_noSep _)
  refine ⟨0, [], fun _ => rfl, by simp, ?_⟩
  cases decide (path.head? = some '/') <;> rfl

end filepath
namespace filepath

theorem foldl_cleanStep_segs (r : Bool) (done : List (List Char)) :
    ∀ (els : List (List Char)) (D : Nat), (∀ e ∈ els, e ≠ []) → (∀ e ∈ done, segChars e) →
      done.foldl (cleanStep r) ⟨cleanOut r els, D⟩ = ⟨cleanOut r (els ++ done), D⟩ := by
  induction done with
  | nil => intro els D _ _; simp
  | cons e done ih =>
    intro els D h1 h2
    have he : segChars e := h2 e (by simp)
    rw [List.foldl_cons, cleanStep_seg r els h1 D e he,
      ih (els ++ [e]) D (by
        intro x hx
        rcases List.mem_append.mp hx with hx | hx
        · exact h1 x hx
        · simp at hx
          exact hx ▸ he.1) (fun x hx => h2 x (List.mem_cons_of_mem _ hx))]
    simp

theorem foldl_cleanStep_dotdots (k : Nat) : ∀ m : Nat,
    (List.replicate k dotdotElem).foldl (cleanStep false)
        ⟨cleanOut false (List.replicate m dotdotElem),
          (cleanOut false (List.replicate m dotdotElem)).length⟩ =
      ⟨cleanOut false (List.replicate (m + k) dotdotElem),
        (cleanOut false (List.replicate (m + k) dotdotElem)).length⟩ := by
  induction k with
  | zero => intro m; simp
  | succ k ih =>
    intro m
    rw [List.replicate_succ, List.foldl_cons,
      cleanStep_dotdot_append _ (replicate_ne_nil_mem m), ← List.replicate_succ', ih (m + 1)]
    have hk : m + 1 + k = m + (k + 1) := by omega
    rw [hk]

theorem head?_joinChars (es : List (List Char)) (hne : es ≠ [])
    (h : ∀ e ∈ es, e ≠ [] ∧ '/' ∉ e) : (joinChars es).head? ≠ some '/' := by
  cases es with
  | nil => exact absurd rfl hne
  | cons a es =>
    obtain ⟨ha, hs⟩ := h a (by simp)
    cases a with
    | nil => exact absurd rfl ha
    | cons c cs =>
      have hc : c ≠ '/' := fun hc => hs (by simp [hc])
      cases es <;> simp [joinChars, hc]

/-- A path of elements `..` followed by valid segments is clean. -/
theorem cleanChars_unrooted (m : Nat) (done : List (List Char))
    (hd : ∀ e ∈ done, segChars e) (hne : List.replicate m dotdotElem ++ done ≠ []) :
    cleanChars (joinChars (List.replicate m dotdotElem ++ done)) =
      joinChars (List.replicate m dotdotElem ++ done) := by
  have hall : ∀ e ∈ List.replicate m dotdotElem ++ done, e ≠ [] ∧ '/' ∉ e := by
    intro e he
    rcases List.mem_append.mp he with he | he
    · rw [(List.mem_replicate.mp he).2]
      exact ⟨dotdotElem_ne_nil, dotdotElem_noSep⟩
    · exact ⟨(hd e he).1, (hd e he).2.1⟩
  have hj : joinChars (List.replicate m dotdotElem ++ done) ≠ [] :=
    fun hj => hne ((joinChars_eq_nil _ (fun e he => (hall e he).1)).mp hj)
  have hh : decide ((joinChars (List.replicate m dotdotElem ++ done)).head? = some '/') =
      false := by
    simpa using head?_joinChars _ hne hall
  have h0 := foldl_cleanStep_dotdots m 0
  simp only [Nat.zero_add, List.replicate_zero] at h0
  have hloop : cleanLoop (joinChars (List.replicate m dotdotElem ++ done)) =
      ⟨joinChars (List.replicate m dotdotElem ++ done),
        (cleanOut false (List.replicate m dotdotElem)).length⟩ := by
    unfold cleanLoop
    simp only [hh, Bool.false_eq_true, if_false]
    rw [splitSep_joinChars _ hne (fun e he => (hall e he).2), List.foldl_append]
    have h1 : (⟨[], 0⟩ : CleanState) =
        ⟨cleanOut false [], (cleanOut false []).length⟩ := rfl
    rw [h1, h0, foldl_cleanStep_segs false done _ _ (replicate_ne_nil_mem m) hd]
    simp [cleanOut]
  rw [cleanChars_eq _ hj, hloop]
  simp [hj]

/-- Go `filepath.Clean` on character lists is idempotent. -/
theorem cleanChars_idem (s : List Char) : cleanChars (cleanChars s) = cleanChars s := by
  by_cases hs : s = []
  · subst hs
    decide
  · rw [cleanChars_eq s hs]
    obtain ⟨m, done, hm, hd, hst⟩ := cleanLoop_inv s
    rw [hst]
    cases hr : decide (s.head? = some '/') with
    | true =>
      have hm0 : m = 0 := hm hr
      subst hm0
      simp only [cleanOut, List.replicate_zero, List.nil_append, if_true,
        List.singleton_append, List.length_cons, Nat.add_one_ne_zero, if_false]
      rw [cleanChars_rooted done (fun e he => (hd e he).2.1) (fun e he => Or.inr (hd e he))]
      congr 2
      apply List.filter_eq_self.mpr
      intro e he
      simpa using (hd e he).1
    | false =>
      simp only [cleanOut, Bool.false_eq_true, if_false, List.nil_append]
      by_cases hne : List.replicate m dotdotElem ++ done = []
      · rw [hne]
        decide
      · have hj : joinChars (List.replicate m dotdotElem ++ done) ≠ [] := by
          intro hj
          apply hne
          refine (joinChars_eq_nil _ ?_).mp hj
          intro e he
          rcases List.mem_append.mp he with he | he
          · exact replicate_ne_nil_mem m e he
          · exact (hd e he).1
        have hl : (joinChars (List.replicate m dotdotElem ++ done)).length ≠ 0 :=
          fun hl => hj (List.length_eq_zero.mp hl)
        simp only [hl, if_false]
        exact cleanChars_unrooted m done hd hne

end filepath

/-- Go `filepath.Clean` is idempotent. -/
theorem Clean_idem (p : String) : filepath.Clean (filepath.Clean p) = filepath.Clean p := by
  rw [String.ext_iff]
  exact filepath.cleanChars_idem p.data

/-- The result of `filepath.Dir` is a clean path. -/
theorem Clean_Dir (p : String) : filepath.Clean (filepath.Dir p) = filepath.Dir p :=
  Clean_idem _

namespace filepath

theorem cleanLoop_append_sep (l : List Char) (h : l ≠ []) :
    cleanLoop (l ++ ['/']) = cleanLoop l := by
  cases l with
  | nil => exact absurd rfl h
  | cons c cs =>
    unfold cleanLoop
    simp only [List.cons_append, List.head?_cons, List.tail_cons]
    by_cases hc : c = '/'
    · subst hc
      simp [splitSep_append_sep, List.foldl_append, cleanStep_nil]
    · have hd : decide (some c = some '/') = false := by simp [hc]
      simp only [hd, Bool.false_eq_true, if_false]
      rw [← List.cons_append, splitSep_append_sep]
      simp [List.foldl_append, cleanStep_nil]

/-- A trailing separator is dropped by `Clean`. -/
theorem cleanChars_trailing_sep (l : List Char) (h : l ≠ []) :
    cleanChars (l ++ ['/']) = cleanChars l := by
  rw [cleanChars_eq _ (by simp), cleanChars_eq _ h, cleanLoop_append_sep l h]

/-- The forms of a clean path: rooted with valid segments, `.`, or elements
`..` followed by valid segments. -/
theorem clean_form (s : List Char) (h : cleanChars s = s) :
    (∃ done : List (List Char), (∀ e ∈ done, segChars e) ∧ s = '/' :: joinChars done) ∨
    s = ['.'] ∨
    (∃ (m : Nat) (done : List (List Char)), (∀ e ∈ done, segChars e) ∧
      List.replicate m dotdotElem ++ done ≠ [] ∧
      s = joinChars (List.replicate m dotdotElem ++ done)) := by
  by_cases hs : s = []
  · subst hs
    exact absurd h (by decide)
  · rw [cleanChars_eq s hs] at h
    obtain ⟨m, done, hm, hd, hst⟩ := cleanLoop_inv s
    rw [hst] at h
    cases hr : decide (s.head? = some '/') with
    | true =>
      have hm0 : m = 0 := hm hr
      subst hm0
      rw [hr] at h
      simp only [cleanOut, List.replicate_zero, List.nil_append, if_true,
        List.singleton_append, List.length_cons, Nat.add_one_ne_zero, if_false] at h
      exact Or.inl ⟨done, hd, h.symm⟩
    | false =>
      rw [hr] at h
      simp only [cleanOut, Bool.false_eq_true, if_false, List.nil_append] at h
      by_cases hne : List.replicate m dotdotElem ++ done = []
      · rw [hne] at h
        exact Or.inr (Or.inl h.symm)
      · have hj : joinChars (List.replicate m dotdotElem ++ done) ≠ [] := by
          intro hj
          apply hne
          refine (joinChars_eq_nil _ ?_).mp hj
          intro e he
          rcases List.mem_append.mp he with he | he
          · exact replicate_ne_nil_mem m e he
          · exact (hd e he).1
        have hl : (joinChars (List.replicate m dotdotElem ++ done)).length ≠ 0 :=
          fun hl => hj (List.length_eq_zero.mp hl)
        simp only [hl, if_false] at h
        exact Or.inr (Or.inr ⟨m, done, hd, hne, h.symm⟩)

theorem segChars_snoc (done : List (List Char)) (hd : ∀ e ∈ done, segChars e) (x : List Char)
    (hx : segChars x) : ∀ e ∈ done ++ [x], segChars e := by
  intro e he
  rcases List.mem_append.mp he with he | he
  · exact hd e he
  · simp at he
    exact he ▸ hx

/-- Cleaning a clean path followed by a separator and a valid segment: the
text itself, except below `/` and below `.`. -/
theorem cleanChars_child (s x : List Char) (hs : cleanChars s = s) (hx : segChars x) :
    cleanChars (s ++ '/' :: x) = s ++ '/' :: x ∨
    (s = ['/'] ∧ cleanChars (s ++ '/' :: x) = '/' :: x) ∨
    (s = ['.'] ∧ cleanChars (s ++ '/' :: x) = x) := by
  rcases clean_form s hs with ⟨done, hd, rfl⟩ | rfl | ⟨m, done, hd, hne, rfl⟩
  · by_cases h0 : done = []
    · subst h0
      refine Or.inr (Or.inl ⟨rfl, ?_⟩)
      have h1 := cleanChars_rooted [[], x] (by
        intro e he
        simp at he
        rcases he with he | he
        · simp [he]
        · exact he ▸ hx.2.1) (by
        intro e he
        simp at he
        rcases he with he | he
        · exact Or.inl he
        · exact Or.inr (he ▸ hx))
      simpa [joinChars, hx.1] using h1
    · refine Or.inl ?_
      have h1 := cleanChars_rooted (done ++ [x])
        (fun e he => (segChars_snoc done hd x hx e he).2.1)
        (fun e he => Or.inr (segChars_snoc done hd x hx e he))
      have hf : (done ++ [x]).filter (fun e => decide (e ≠ [])) = done ++ [x] := by
        apply List.filter_eq_self.mpr
        intro e he
        simpa using (segChars_snoc done hd x hx e he).1
      rw [hf, joinChars_snoc done h0] at h1
      exact h1
  · refine Or.inr (Or.inr ⟨rfl, ?_⟩)
    have hsplit : splitSep (['.'] ++ '/' :: x) = [['.'], x] := by
      rw [splitSep_append_sep_cons ['.'] x (by decide), splitSep_noSep x hx.2.1]
    have hstep := cleanStep_seg false [] (by simp) 0 x hx
    simp only [cleanOut, Bool.false_eq_true, if_false, List.nil_append, joinChars] at hstep
    have hloop : cleanLoop (['.'] ++ '/' :: x) = ⟨x, 0⟩ := by
      unfold cleanLoop
      have hd : decide ((['.'] ++ '/' :: x).head? = some '/') = false := by simp
      simp only [hd, Bool.false_eq_true, if_false]
      rw [hsplit, List.foldl_cons, List.foldl_cons, List.foldl_nil, cleanStep_dot, hstep]
    have hl : x.length ≠ 0 := fun hl => hx.1 (List.length_eq_zero.mp hl)
    rw [cleanChars_eq _ (by simp), hloop]
    simp [hl]
  · refine Or.inl ?_
    have h1 := cleanChars_unrooted m (done ++ [x]) (segChars_snoc done hd x hx) (by simp)
    rw [← List.append_assoc, joinChars_snoc _ hne] at h1
    exact h1

theorem dirPart_noSep (x : List Char) (h : '/' ∉ x) : dirPart x = [] := by
  have h1 : x.reverse.dropWhile (fun c => c != '/') = [] := by
    apply List.dropWhile_eq_nil_iff.mpr
    intro c hc
    have hc2 : c ≠ '/' := fun hc2 => h (hc2 ▸ List.mem_reverse.mp hc)
    simpa using hc2
  simp [dirPart, h1]

/-- The parent of the child `x` of a clean directory is the directory. -/
theorem cleanChars_dirPart_child (s x : List Char) (hs : cleanChars s = s) (hx : segChars x) :
    cleanChars (dirPart (cleanChars (s ++ '/' :: x))) = s := by
  have hne : s ≠ [] := by
    intro h0
    subst h0
    exact absurd hs (by decide)
  rcases cleanChars_child s x hs hx with h | ⟨rfl, h⟩ | ⟨rfl, h⟩
  · rw [h, dirPart_append_noSep s x hx.2.1, cleanChars_trailing_sep s hne, hs]
  · rw [h]
    have hdp := dirPart_append_noSep [] x hx.2.1
    simp only [List.nil_append] at hdp
    rw [hdp]
    decide
  · rw [h, dirPart_noSep x hx.2.1]
    decide

end filepath

theorem Clean_ne_empty (d : String) (hd : filepath.Clean d = d) : d ≠ "" := by
  intro h0
  subst h0
  exact absurd hd (by decide)

/-- The parent of the file `name` in a clean directory `d`, as `filepath.Join`
builds it, is `d`. -/
theorem Dir_Join (d name : String) (hd : filepath.Clean d = d) (hn : isSegment name = true) :
    filepath.Dir (filepath.Join [d, name]) = d := by
  have hne := Clean_ne_empty d hd
  have hj : filepath.Join [d, name] = filepath.Clean (filepath.joinSep [d, name]) := by
    simp [filepath.Join, hne]
  have hdata : (filepath.joinSep [d, name]).data = d.data ++ '/' :: name.data := by
    rw [joinSep_data]
    rfl
  have hs : filepath.cleanChars d.data = d.data := congrArg String.data hd
  rw [String.ext_iff, hj]
  simp only [filepath.Dir, filepath.Clean, hdata]
  exact filepath.cleanChars_dirPart_child d.data name.data hs ((isSegment_iff name).mp hn)

/-- Distinct clean directories give distinct candidates. -/
theorem Join_injective_of_clean (name : String) (hn : isSegment name = true) (d e : String)
    (hd : filepath.Clean d = d) (he : filepath.Clean e = e)
    (h : filepath.Join [d, name] = filepath.Join [e, name]) : d = e := by
  rw [← Dir_Join d name hd hn, h, Dir_Join e name he hn]

theorem walk_mem_clean_aux (n : Nat) :
    ∀ q : String, walkMeasure q ≤ n → ∀ d ∈ walk q, d = q ∨ filepath.Clean d = d := by
  induction n with
  | zero =>
    intro q h d hd
    have hq : filepath.Dir q = q := by
      by_contra hne
      simp [walkMeasure, hne] at h
    rw [walk_fixed q hq, List.mem_singleton] at hd
    exact Or.inl hd
  | succ n ih =>
    intro q h d hd
    by_cases hq : filepath.Dir q = q
    · rw [walk_fixed q hq, List.mem_singleton] at hd
      exact Or.inl hd
    · have hlt := walkMeasure_Dir_lt q hq
      rw [walk_step q hq, List.mem_append, List.mem_singleton] at hd
      rcases hd with hd | hd
      · rcases ih (filepath.Dir q) (by omega) d hd with h1 | h1
        · exact Or.inr (h1 ▸ Clean_Dir q)
        · exact Or.inr h1
      · exact Or.inl hd

/-- Every directory of the walk from a clean path is a clean path. -/
theorem walk_clean (q : String) (hq : filepath.Clean q = q) :
    ∀ d ∈ walk q, filepath.Clean d = d := by
  intro d hd
  rcases walk_mem_clean_aux _ q (Nat.le_refl _) d hd with h | h
  · exact h ▸ hq
  · exact h

/-- The candidates of the walk from a clean path, for a configuration name
that is a valid segment, are pairwise distinct. -/
theorem walk_candidates_nodup (q name : String) (hq : filepath.Clean q = q)
    (hn : isSegment name = true) :
    ((walk q).map (fun d => filepath.Join [d, name])).Nodup :=
  List.Nodup.map_on (fun d hd e he h =>
    Join_injective_of_clean name hn d e (walk_clean q hq d hd) (walk_clean q hq e he) h)
    (walk_nodup q)

theorem walk_dropLast (q : String) :
    (walk q).dropLast = if filepath.Dir q = q then [] else walk (filepath.Dir q) := by
  by_cases hq : filepath.Dir q = q
  · simp [walk_fixed q hq, hq]
  · rw [walk_step q hq, if_neg hq]
    simp

/-! ## The claims -/

/-- C1: for every configuration, filesystem and environment, `Enumerate()`
returns exactly the elements of `EnumerateSystem()`, then those of
`EnumerateUser()`, then those of `EnumeratePath()`; it panics exactly when
one of the three does. -/
theorem Enumerate_eq_concat (o : Options) (env : Env) :
    Slice.toList <$> o.Enumerate env =
      (o.EnumerateSystem env >>= fun s =>
        o.EnumerateUser env >>= fun u =>
        o.EnumeratePath env >>= fun p =>
        Except.ok (s.toList ++ u.toList ++ p.toList)) := by
  rw [Enumerate_eq, EnumerateSystem_eq, EnumerateUser_eq, EnumeratePath_eq]
  have h0 : Slice.toList none = [] := rfl
  simp only [appendAll_eq, Options.candidates, List.all_append, List.append_assoc,
    firstPanic_append]
  cases (o.systemCandidates env).all o.probeReturns <;>
    cases (o.userCandidates env).all o.probeReturns <;>
    cases (o.pathCandidates env).all o.probeReturns <;>
    simp [bind_ok, bind_error, map_ok, map_error, Slice.toList_extend, List.filter_append, h0]

/-- C2: for the working directory `/s1/.../sn` (valid segments, `n ≥ 0`) and
every in-path name, `EnumeratePath()` with `includeMissing = true` returns
exactly `n + 1` candidates, one per directory level, root first and working
directory last, the candidate of a level being `Join(level, name)`; for a
name that is a valid segment these are `/name`, `/s1/name`, ...,
`/s1/.../sn/name`; with `includeMissing = false` and a filesystem that answers
the probes the result is that list filtered by the probe, in the same
relative order. -/
theorem EnumeratePath_chain (o : Options) (env : Env) (segs : List String)
    (hs : ∀ s ∈ segs, isSegment s = true) (hwd : env.Getwd = some (absPath segs)) :
    (o.includeMissing = true →
      o.EnumeratePath env = Except.ok (some
        (segs.inits.map (fun d => filepath.Join [absPath d, o.configNameInPath]))) ∧
      (segs.inits.map (fun d => filepath.Join [absPath d, o.configNameInPath])).length =
        segs.length + 1) ∧
    (isSegment o.configNameInPath = true →
      segs.inits.map (fun d => filepath.Join [absPath d, o.configNameInPath]) =
        segs.inits.map (fun d => fileIn d o.configNameInPath)) ∧
    (o.includeMissing = false → ∀ fsys, o.fs = some fsys →
      (∀ c ∈ segs.inits.map (fun d => filepath.Join [absPath d, o.configNameInPath]),
        fsys.answers c = true) →
      Slice.toList <$> o.EnumeratePath env = Except.ok
        ((segs.inits.map (fun d => filepath.Join [absPath d, o.configNameInPath])).filter
          (probeOk fsys)) ∧
      ((segs.inits.map (fun d => filepath.Join [absPath d, o.configNameInPath])).filter
        (probeOk fsys)).Sublist
        (segs.inits.map (fun d => filepath.Join [absPath d, o.configNameInPath]))) := by
  have hc := pathCandidates_absPath o env segs hs hwd
  refine ⟨fun hi => ⟨?_, ?_⟩, fun hn => ?_, fun hi fsys hf ha => ⟨?_, ?_⟩⟩
  · rw [EnumeratePath_eq, appendAll_includeMissing o hi, hc, extend_none_of_ne_nil]
    intro h
    have hl := congrArg List.length h
    simp [List.length_inits] at hl
  · simp [List.length_inits]
  · apply List.map_congr_left
    intro d hd
    have hpre : d <+: segs := (List.mem_inits d segs).mp hd
    exact Join_absPath d (fun s h => hs s (hpre.subset h)) _ hn
  · rw [EnumeratePath_eq, hc, toList_appendAll_filter o fsys hi hf _ ha]
  · exact List.filter_sublist _

/-- C2 on the working directory `/a/b/c` with the in-path name `.app`. -/
theorem EnumeratePath_chain_witness :
    (∀ s ∈ ["a", "b", "c"], isSegment s = true) ∧
    sampleEnv.Getwd = some (absPath ["a", "b", "c"]) ∧
    ((New "/" sampleStat "app").IncludeMissing true).configNameInPath = ".app" ∧
    ((New "/" sampleStat "app").IncludeMissing true).EnumeratePath sampleEnv =
      Except.ok (some ["/.app", "/a/.app", "/a/b/.app", "/a/b/c/.app"]) :=
  ⟨by decide, by decide, by decide,
    ((EnumeratePath_chain ((New "/" sampleStat "app").IncludeMissing true) sampleEnv
      ["a", "b", "c"] (by decide) (by decide)).1 rfl).1.trans (by decide)⟩

/-- C3: for every application name and config file name, `EnumerateSystem()`
with `includeMissing = true` returns exactly one path per system configuration
root, in the order of the root list, the path of the root `s` being
`Join(s, appName, configName)`; when the roots are absolute paths of valid
segments and the two names are valid segments this path is literally
`s/appName/configName`; with `includeMissing = false` and a filesystem that
answers the probes the result is that list filtered by the probe, a
subsequence in the same order. -/
theorem EnumerateSystem_form (o : Options) (env : Env) :
    (o.includeMissing = true →
      Slice.toList <$> o.EnumerateSystem env = Except.ok
        (env.systemConfigs.map (fun s => filepath.Join [s, o.appName, o.configName])) ∧
      (env.systemConfigs.map (fun s => filepath.Join [s, o.appName, o.configName])).length =
        env.systemConfigs.length) ∧
    (∀ roots : List (List String), env.systemConfigs = roots.map absPath →
      (∀ r ∈ roots, r ≠ [] ∧ ∀ s ∈ r, isSegment s = true) →
      isSegment o.appName = true → isSegment o.configName = true →
      env.systemConfigs.map (fun s => filepath.Join [s, o.appName, o.configName]) =
        env.systemConfigs.map (fun s => s ++ "/" ++ o.appName ++ "/" ++ o.configName)) ∧
    (o.includeMissing = false → ∀ fsys, o.fs = some fsys →
      (∀ c ∈ env.systemConfigs.map (fun s => filepath.Join [s, o.appName, o.configName]),
        fsys.answers c = true) →
      Slice.toList <$> o.EnumerateSystem env = Except.ok
        ((env.systemConfigs.map (fun s => filepath.Join [s, o.appName, o.configName])).filter
          (probeOk fsys)) ∧
      ((env.systemConfigs.map (fun s => filepath.Join [s, o.appName, o.configName])).filter
        (probeOk fsys)).Sublist
        (env.systemConfigs.map (fun s => filepath.Join [s, o.appName, o.configName]))) := by
  refine ⟨fun hi => ⟨?_, ?_⟩, fun roots hr hroots ha hn => ?_,
    fun hi fsys hf hans => ⟨?_, ?_⟩⟩
  · rw [EnumerateSystem_eq, appendAll_includeMissing o hi, map_ok, Slice.toList_extend]
    rfl
  · simp
  · rw [hr]
    simp only [List.map_map]
    apply List.map_congr_left
    intro r hmem
    exact Join_absPath_three r (hroots r hmem).1 (hroots r hmem).2 _ _ ha hn
  · rw [EnumerateSystem_eq]
    exact toList_appendAll_filter o fsys hi hf (o.systemCandidates env) hans
  · exact List.filter_sublist _

/-- C3 on the sample system: the roots `/etc` and `/etc/xdg`, the application
name `app` and the config file name `app.conf`. -/
theorem EnumerateSystem_form_witness :
    sampleEnv.systemConfigs = [["etc"], ["etc", "xdg"]].map absPath ∧
    (∀ r ∈ [["etc"], ["etc", "xdg"]], r ≠ [] ∧ ∀ s ∈ r, isSegment s = true) ∧
    isSegment ((New "/" sampleStat "app").IncludeMissing true).appName = true ∧
    isSegment ((New "/" sampleStat "app").IncludeMissing true).configName = true ∧
    Slice.toList <$> ((New "/" sampleStat "app").IncludeMissing true).EnumerateSystem sampleEnv =
      Except.ok ["/etc/app/app.conf", "/etc/xdg/app/app.conf"] :=
  ⟨by decide, by decide, by decide, by decide,
    ((EnumerateSystem_form ((New "/" sampleStat "app").IncludeMissing true) sampleEnv).1
      rfl).1.trans (congrArg Except.ok
        (((EnumerateSystem_form ((New "/" sampleStat "app").IncludeMissing true) sampleEnv).2.1
          [["etc"], ["etc", "xdg"]] (by decide) (by decide) (by decide) (by decide)).trans
          (by decide)))⟩

/-- C4 as stated fails: on the sample filesystem the user candidate is a named
pipe, which is not a regular file, and `EnumerateUser()` and `Enumerate()`
return it with `includeMissing = false`. -/
theorem returned_path_not_regular :
    ((New "/" sampleStat "app").FS (some sampleFS)).includeMissing = false ∧
    ((New "/" sampleStat "app").FS (some sampleFS)).EnumerateUser sampleEnv =
      Except.ok (some ["/home/u/.config/app/app.conf"]) ∧
    ((New "/" sampleStat "app").FS (some sampleFS)).Enumerate sampleEnv =
      Except.ok (some ["/etc/app/app.conf", "/home/u/.config/app/app.conf", "/a/.app"]) ∧
    sampleFS.Stat "/home/u/.config/app/app.conf" =
      some (Except.ok (some ⟨FileMode.namedPipe⟩)) ∧
    FileMode.namedPipe.IsRegular = false := by
  decide

/-- C4, amended: with `includeMissing = false` and a filesystem `fsys` that is
not the nil interface, every path returned by `EnumerateSystem()`,
`EnumerateUser()`, `EnumeratePath()` and `Enumerate()` exists on `fsys` (the
probe succeeds) and is not a directory; and when `fsys` answers the probes of
the candidates each of the four returns such a list. -/
theorem returned_paths_exist_not_dir (o : Options) (env : Env) (fsys : FS)
    (hi : o.includeMissing = false) (hf : o.fs = some fsys) :
    (returnedExistNotDir fsys (o.EnumerateSystem env) ∧
      returnedExistNotDir fsys (o.EnumerateUser env) ∧
      returnedExistNotDir fsys (o.EnumeratePath env) ∧
      returnedExistNotDir fsys (o.Enumerate env)) ∧
    ((∀ c ∈ o.candidates env, fsys.answers c = true) →
      existNotDir fsys (o.EnumerateSystem env) ∧ existNotDir fsys (o.EnumerateUser env) ∧
        existNotDir fsys (o.EnumeratePath env) ∧ existNotDir fsys (o.Enumerate env)) := by
  rw [Enumerate_eq, EnumerateSystem_eq, EnumerateUser_eq, EnumeratePath_eq]
  refine ⟨⟨returnedExistNotDir_appendAll o fsys hi hf _,
    returnedExistNotDir_appendAll o fsys hi hf _, returnedExistNotDir_appendAll o fsys hi hf _,
    returnedExistNotDir_appendAll o fsys hi hf _⟩, fun ha => ?_⟩
  exact ⟨existNotDir_appendAll o fsys hi hf _
      (fun c hc => ha c (by simp [Options.candidates, hc])),
    existNotDir_appendAll o fsys hi hf _
      (fun c hc => ha c (by simp [Options.candidates, hc])),
    existNotDir_appendAll o fsys hi hf _
      (fun c hc => ha c (by simp [Options.candidates, hc])),
    existNotDir_appendAll o fsys hi hf _ ha⟩

/-- C4, amended, on the sample system. -/
theorem returned_paths_exist_not_dir_witness :
    ((New "/" sampleStat "app").FS (some sampleFS)).includeMissing = false ∧
    ((New "/" sampleStat "app").FS (some sampleFS)).fs = some sampleFS ∧
    (∀ c ∈ ((New "/" sampleStat "app").FS (some sampleFS)).candidates sampleEnv,
      sampleFS.answers c = true) ∧
    existNotDir sampleFS (((New "/" sampleStat "app").FS (some sampleFS)).Enumerate sampleEnv) :=
  ⟨rfl, rfl, by decide,
    ((returned_paths_exist_not_dir ((New "/" sampleStat "app").FS (some sampleFS))
      sampleEnv sampleFS rfl rfl).2 (by decide)).2.2.2⟩

/-- C5 fails on the code. On the sample operating system `/etc/app/app.conf`
and `/a/.app` are existing regular files and candidates of `EnumerateSystem()`
and `EnumeratePath()`, yet with the filesystem installed by `New`
(`os.DirFS("/")`) every probe is made with the rooted candidate path as the
name, which `os.DirFS` rejects as an invalid `fs.FS` path: nothing is found. -/
theorem default_filesystem_finds_nothing :
    sampleStat "/etc/app/app.conf" = Except.ok ⟨FileMode.regular⟩ ∧
    sampleStat "/a/.app" = Except.ok ⟨FileMode.regular⟩ ∧
    (New "/" sampleStat "app").systemCandidates sampleEnv =
      ["/etc/app/app.conf", "/etc/xdg/app/app.conf"] ∧
    (New "/" sampleStat "app").pathCandidates sampleEnv =
      ["/.app", "/a/.app", "/a/b/.app", "/a/b/c/.app"] ∧
    iofs.ValidPath "/etc/app/app.conf" = false ∧
    (os.DirFS sampleStat "/").Stat "/etc/app/app.conf" = some (Except.error FsError.invalid) ∧
    (New "/" sampleStat "app").EnumerateSystem sampleEnv = Except.ok none ∧
    (New "/" sampleStat "app").EnumerateUser sampleEnv = Except.ok none ∧
    (New "/" sampleStat "app").EnumeratePath sampleEnv = Except.ok none ∧
    (New "/" sampleStat "app").Enumerate sampleEnv = Except.ok none := by
  decide

/-- C6: the existence policy of `appendIfFile`. With `includeMissing = false`
a candidate whose probe returns an error of any kind, or reports a directory,
leaves the accumulated list unchanged and no error is surfaced; a candidate
whose probe succeeds and is not a directory is appended at the end. With
`includeMissing = true` the candidate is appended whatever the filesystem
holds, a directory included. -/
theorem appendIfFile_policy (o : Options) (files : Slice) (name : String) :
    (o.includeMissing = false →
      (∀ e, iofs.Stat o.fs name = Except.ok (Except.error e) →
        o.appendIfFile files name = Except.ok files) ∧
      (∀ info : FileInfo, iofs.Stat o.fs name = Except.ok (Except.ok (some info)) →
        info.IsDir = true → o.appendIfFile files name = Except.ok files) ∧
      (∀ info : FileInfo, iofs.Stat o.fs name = Except.ok (Except.ok (some info)) →
        info.IsDir = false →
        o.appendIfFile files name = Except.ok (some (files.toList ++ [name])))) ∧
    (o.includeMissing = true →
      o.appendIfFile files name = Except.ok (some (files.toList ++ [name]))) := by
  refine ⟨fun hi => ⟨?_, ?_, ?_⟩, fun hi => ?_⟩
  · intro e hs
    simp [Options.appendIfFile, hi, hs]
  · intro info hs hd
    simp [Options.appendIfFile, hi, hs, hd]
  · intro info hs hd
    simp [Options.appendIfFile, hi, hs, hd, Slice.append]
  · simp [Options.appendIfFile, hi, Slice.append]

/-- C6 on the sample filesystem: an unreadable place and a directory are
omitted, a regular file is appended, and the directory is appended once
`includeMissing` is set. -/
theorem appendIfFile_policy_witness :
    ((New "/" sampleStat "app").FS (some sampleFS)).appendIfFile (some ["x"]) "/a/b/.app" =
      Except.ok (some ["x"]) ∧
    ((New "/" sampleStat "app").FS (some sampleFS)).appendIfFile (some ["x"])
      "/etc/xdg/app/app.conf" = Except.ok (some ["x"]) ∧
    ((New "/" sampleStat "app").FS (some sampleFS)).appendIfFile (some ["x"]) "/a/.app" =
      Except.ok (some (["x"] ++ ["/a/.app"])) ∧
    (((New "/" sampleStat "app").FS (some sampleFS)).IncludeMissing true).appendIfFile
      (some ["x"]) "/etc/xdg/app/app.conf" = Except.ok (some (["x"] ++ ["/etc/xdg/app/app.conf"])) :=
  ⟨((appendIfFile_policy ((New "/" sampleStat "app").FS (some sampleFS)) (some ["x"])
      "/a/b/.app").1 rfl).1 FsError.permission (by decide),
    ((appendIfFile_policy ((New "/" sampleStat "app").FS (some sampleFS)) (some ["x"])
      "/etc/xdg/app/app.conf").1 rfl).2.1 ⟨FileMode.dir⟩ (by decide) (by decide),
    ((appendIfFile_policy ((New "/" sampleStat "app").FS (some sampleFS)) (some ["x"])
      "/a/.app").1 rfl).2.2 ⟨FileMode.regular⟩ (by decide) (by decide),
    (appendIfFile_policy (((New "/" sampleStat "app").FS (some sampleFS)).IncludeMissing true)
      (some ["x"]) "/etc/xdg/app/app.conf").2 rfl⟩

/-- C7: with `includeMissing = true` every query operation returns the full
candidate set, whatever the filesystem (the nil interface included): for any
two filesystems `fs1`, `fs2` and the same configuration and environment,
`EnumerateSystem()`, `EnumerateUser()`, `EnumeratePath()` and `Enumerate()`
return the same list, which holds every candidate. -/
theorem includeMissing_ignores_filesystem (o : Options) (env : Env) (fs1 fs2 : Option FS)
    (h : o.includeMissing = true) :
    ((o.FS fs1).EnumerateSystem env = (o.FS fs2).EnumerateSystem env ∧
      (o.FS fs1).EnumerateSystem env = Except.ok (Slice.extend none (o.systemCandidates env))) ∧
    ((o.FS fs1).EnumerateUser env = (o.FS fs2).EnumerateUser env ∧
      (o.FS fs1).EnumerateUser env = Except.ok (Slice.extend none (o.userCandidates env))) ∧
    ((o.FS fs1).EnumeratePath env = (o.FS fs2).EnumeratePath env ∧
      (o.FS fs1).EnumeratePath env = Except.ok (Slice.extend none (o.pathCandidates env))) ∧
    ((o.FS fs1).Enumerate env = (o.FS fs2).Enumerate env ∧
      (o.FS fs1).Enumerate env = Except.ok (Slice.extend none (o.candidates env))) := by
  have h1 : (o.FS fs1).includeMissing = true := h
  have h2 : (o.FS fs2).includeMissing = true := h
  rw [Enumerate_eq, EnumerateSystem_eq, EnumerateUser_eq, EnumeratePath_eq,
    Enumerate_eq, EnumerateSystem_eq, EnumerateUser_eq, EnumeratePath_eq]
  simp only [appendAll_includeMissing _ h1, appendAll_includeMissing _ h2]
  exact ⟨⟨rfl, rfl⟩, ⟨rfl, rfl⟩, ⟨rfl, rfl⟩, ⟨rfl, rfl⟩⟩

/-- C7 on the sample system: the sample filesystem and the nil interface give
the same seven candidates. -/
theorem includeMissing_ignores_filesystem_witness :
    ((New "/" sampleStat "app").IncludeMissing true).includeMissing = true ∧
    ((((New "/" sampleStat "app").IncludeMissing true).FS (some sampleFS)).Enumerate sampleEnv =
      (((New "/" sampleStat "app").IncludeMissing true).FS none).Enumerate sampleEnv) ∧
    (((New "/" sampleStat "app").IncludeMissing true).FS none).Enumerate sampleEnv =
      Except.ok (some ["/etc/app/app.conf", "/etc/xdg/app/app.conf",
        "/home/u/.config/app/app.conf", "/.app", "/a/.app", "/a/b/.app", "/a/b/c/.app"]) :=
  ⟨rfl, (includeMissing_ignores_filesystem ((New "/" sampleStat "app").IncludeMissing true)
    sampleEnv (some sampleFS) none rfl).2.2.2.1, by decide⟩

/-- C8 as stated fails. After `FS(nil)` the probe of the first candidate is a
method call on the nil interface; with a filesystem whose `Stat` reports no
error and gives no file information the call `info.IsDir()` is one; and with a
filesystem whose `Stat` panics the probe panics. In all three cases
`EnumerateSystem()`, `EnumerateUser()`, `EnumeratePath()` and `Enumerate()`
panic on the sample environment. -/
theorem nil_filesystem_panics :
    (((New "/" sampleStat "app").FS none).EnumerateSystem sampleEnv =
        Except.error Panic.nilDereference ∧
      ((New "/" sampleStat "app").FS none).EnumerateUser sampleEnv =
        Except.error Panic.nilDereference ∧
      ((New "/" sampleStat "app").FS none).EnumeratePath sampleEnv =
        Except.error Panic.nilDereference ∧
      ((New "/" sampleStat "app").FS none).Enumerate sampleEnv =
        Except.error Panic.nilDereference) ∧
    (((New "/" sampleStat "app").FS (some nilInfoFS)).EnumerateSystem sampleEnv =
        Except.error Panic.nilDereference ∧
      ((New "/" sampleStat "app").FS (some nilInfoFS)).EnumerateUser sampleEnv =
        Except.error Panic.nilDereference ∧
      ((New "/" sampleStat "app").FS (some nilInfoFS)).EnumeratePath sampleEnv =
        Except.error Panic.nilDereference ∧
      ((New "/" sampleStat "app").FS (some nilInfoFS)).Enumerate sampleEnv =
        Except.error Panic.nilDereference) ∧
    (((New "/" sampleStat "app").FS (some panicFS)).EnumerateSystem sampleEnv =
        Except.error Panic.inFilesystem ∧
      ((New "/" sampleStat "app").FS (some panicFS)).EnumerateUser sampleEnv =
        Except.error Panic.inFilesystem ∧
      ((New "/" sampleStat "app").FS (some panicFS)).EnumeratePath sampleEnv =
        Except.error Panic.inFilesystem ∧
      ((New "/" sampleStat "app").FS (some panicFS)).Enumerate sampleEnv =
        Except.error Panic.inFilesystem) := by
  decide

/-- C8, amended: for every enumerator `o` obtained from `New` followed by any
sequence of setter calls, and for every environment, each of
`EnumerateSystem()`, `EnumerateUser()`, `EnumeratePath()` and `Enumerate()`
returns a list normally (no panic, the walk up the directory chain ends)
exactly when the probe of each of its candidates returns: `includeMissing` is
true, or the filesystem is not the nil interface and answers the candidate,
that is, its `Stat` returns, with an error or with a file information that is
not nil. In particular all four return when `includeMissing` is true, and when
the filesystem is not nil and answers every name in this way. -/
theorem no_panic_after_setters (root : String) (osStat : String → Except FsError FileInfo)
    (appName : String) (setters : List Setter) (env : Env) (o : Options)
    (ho : o = setters.foldl Setter.apply (New root osStat appName)) :
    ((returns (o.EnumerateSystem env) ↔
        ∀ c ∈ o.systemCandidates env, o.probeReturns c = true) ∧
      (returns (o.EnumerateUser env) ↔ ∀ c ∈ o.userCandidates env, o.probeReturns c = true) ∧
      (returns (o.EnumeratePath env) ↔ ∀ c ∈ o.pathCandidates env, o.probeReturns c = true) ∧
      (returns (o.Enumerate env) ↔ ∀ c ∈ o.candidates env, o.probeReturns c = true)) ∧
    (o.includeMissing = true →
      returns (o.EnumerateSystem env) ∧ returns (o.EnumerateUser env) ∧
        returns (o.EnumeratePath env) ∧ returns (o.Enumerate env)) ∧
    (∀ fsys, o.fs = some fsys → (∀ name, fsys.answers name = true) →
      returns (o.EnumerateSystem env) ∧ returns (o.EnumerateUser env) ∧
        returns (o.EnumeratePath env) ∧ returns (o.Enumerate env)) := by
  subst ho
  exact returns_iff_probeReturns _ env

/-- C8, amended, on the sample system after four setter calls: the sample
filesystem answers every candidate and `Enumerate()` returns; after a fifth
call that installs the filesystem without file information the probe of a
candidate does not return and neither does `Enumerate()`. -/
theorem no_panic_after_setters_witness :
    (∀ c ∈ ([Setter.ConfigName "c", Setter.FS none, Setter.IncludeMissing false,
      Setter.FS (some sampleFS)].foldl Setter.apply (New "/" sampleStat "app")).candidates
        sampleEnv,
      ([Setter.ConfigName "c", Setter.FS none, Setter.IncludeMissing false,
        Setter.FS (some sampleFS)].foldl Setter.apply
          (New "/" sampleStat "app")).probeReturns c = true) ∧
    returns (([Setter.ConfigName "c", Setter.FS none, Setter.IncludeMissing false,
      Setter.FS (some sampleFS)].foldl Setter.apply (New "/" sampleStat "app")).Enumerate
        sampleEnv) ∧
    ¬ returns (([Setter.ConfigName "c", Setter.FS none, Setter.IncludeMissing false,
      Setter.FS (some sampleFS), Setter.FS (some nilInfoFS)].foldl Setter.apply
        (New "/" sampleStat "app")).Enumerate sampleEnv) :=
  ⟨by decide,
    ((no_panic_after_setters "/" sampleStat "app" [Setter.ConfigName "c", Setter.FS none,
      Setter.IncludeMissing false, Setter.FS (some sampleFS)] sampleEnv _ rfl).1.2.2.2).mpr
      (by decide),
    fun h => absurd
      (((no_panic_after_setters "/" sampleStat "app" [Setter.ConfigName "c", Setter.FS none,
        Setter.IncludeMissing false, Setter.FS (some sampleFS), Setter.FS (some nilInfoFS)]
        sampleEnv _ rfl).1.2.2.2).mp h "/etc/app/c" (by decide))
      (by decide)⟩

/-- C9: if the working directory cannot be resolved, `EnumeratePath()` returns
an empty sequence (the nil slice) without error, for every configuration and
filesystem, the nil interface and `includeMissing = true` included. -/
theorem EnumeratePath_unresolved (o : Options) (env : Env) (h : env.Getwd = none) :
    o.EnumeratePath env = Except.ok none ∧
      Slice.toList <$> o.EnumeratePath env = Except.ok [] := by
  simp [Options.EnumeratePath, Options.appendPath, h, map_ok, Slice.toList]

/-- C9 with `includeMissing = true` and the nil filesystem. -/
theorem EnumeratePath_unresolved_witness :
    (⟨["/etc"], some "/home/u/.config", none⟩ : Env).Getwd = none ∧
    (((New "/" sampleStat "app").IncludeMissing true).FS none).EnumeratePath
      ⟨["/etc"], some "/home/u/.config", none⟩ = Except.ok none :=
  ⟨rfl, (EnumeratePath_unresolved (((New "/" sampleStat "app").IncludeMissing true).FS none)
    ⟨["/etc"], some "/home/u/.config", none⟩ rfl).1⟩

/-- C10: `EnumerateUser()` returns at most one entry. It is the empty (nil)
list when the user configuration directory cannot be resolved, whatever
`includeMissing` is; when the directory resolves to `d` the result holds the
path `Join(d, appName, configName)` exactly when the existence policy admits
it, and nothing else; for `d` an absolute path of valid segments and names
that are valid segments that path is literally `d/appName/configName`. -/
theorem EnumerateUser_at_most_one (o : Options) (env : Env) :
    (env.UserConfigDir = none → o.EnumerateUser env = Except.ok none) ∧
    (∀ d, env.UserConfigDir = some d →
      o.probeReturns (filepath.Join [d, o.appName, o.configName]) = true →
      Slice.toList <$> o.EnumerateUser env = Except.ok
        (if o.admits (filepath.Join [d, o.appName, o.configName]) = true
          then [filepath.Join [d, o.appName, o.configName]] else [])) ∧
    (∀ files, o.EnumerateUser env = Except.ok files → files.toList.length ≤ 1) ∧
    (∀ segs : List String, segs ≠ [] → (∀ s ∈ segs, isSegment s = true) →
      isSegment o.appName = true → isSegment o.configName = true →
      filepath.Join [absPath segs, o.appName, o.configName] =
        absPath segs ++ "/" ++ o.appName ++ "/" ++ o.configName) := by
  refine ⟨fun h => ?_, fun d h hp => ?_, fun files h => ?_, fun segs hne hs ha hn => ?_⟩
  · simp [Options.EnumerateUser, Options.appendUser, h]
  · simp only [Options.EnumerateUser, Options.appendUser, h, appendIfFile_eq, hp, if_true,
      map_ok]
    split <;> rfl
  · cases hu : env.UserConfigDir with
    | none =>
      simp only [Options.EnumerateUser, Options.appendUser, hu] at h
      rw [← Except.ok.inj h]
      simp [Slice.toList]
    | some d =>
      simp only [Options.EnumerateUser, Options.appendUser, hu, appendIfFile_eq] at h
      split at h
      · split at h <;> rw [← Except.ok.inj h] <;> simp [Slice.toList, Slice.append]
      · exact absurd h (by simp)
  · exact Join_absPath_three segs hne hs _ _ ha hn

/-- C10 on the sample system: the user candidate is a named pipe, which the
policy admits, and is the only entry. -/
theorem EnumerateUser_at_most_one_witness :
    sampleEnv.UserConfigDir = some "/home/u/.config" ∧
    ((New "/" sampleStat "app").FS (some sampleFS)).probeReturns
      (filepath.Join ["/home/u/.config", "app", "app.conf"]) = true ∧
    Slice.toList <$> ((New "/" sampleStat "app").FS (some sampleFS)).EnumerateUser sampleEnv =
      Except.ok ["/home/u/.config/app/app.conf"] :=
  ⟨rfl, by decide, ((EnumerateUser_at_most_one ((New "/" sampleStat "app").FS (some sampleFS))
    sampleEnv).2.1 "/home/u/.config" rfl (by decide)).trans (by decide)⟩

/-- C11 as stated fails at the starting path `//`. Its parent is `/`, which is
its own parent, so the walk visits `/` and then `//`; both name the root
directory and `filepath.Join` gives the same candidate `/.app` for both, so
the candidate of the root level is built twice, and with `includeMissing`
`EnumeratePath()` returns it twice. The same happens from the clean path `/a`
when the configuration name is `..`: the candidates of `/` and of `/a` are
both `/`. -/
theorem root_candidate_built_twice :
    filepath.Dir "//" = "/" ∧
    filepath.Dir "/" = "/" ∧
    walk "//" = ["/", "//"] ∧
    (walk "//").map (fun d => filepath.Join [d, (New "/" sampleStat "app").configNameInPath]) =
      ["/.app", "/.app"] ∧
    ((New "/" sampleStat "app").IncludeMissing true).appendPathFromRoot none "//" =
      Except.ok (some ["/.app", "/.app"]) ∧
    ((New "/" sampleStat "app").IncludeMissing true).EnumeratePath ⟨[], none, some "//"⟩ =
      Except.ok (some ["/.app", "/.app"]) ∧
    (walk "/a").map (fun d => filepath.Join [d, ".."]) = ["/", "/"] ∧
    (((New "/" sampleStat "app").IncludeMissing true).ConfigNameInPath "..").EnumeratePath
      ⟨[], none, some "/a"⟩ = Except.ok (some ["/", "/"]) := by
  decide

/-- C11, amended: the path-chain walk terminates for every starting path.
Taking the parent `walkDepth path` times, which is at most `path.length + 1`,
reaches a directory that is its own parent (the root sentinel), and no earlier
directory of the chain is; the walk visits exactly the directories reached on
the way, the root first, no directory text twice and the root text once;
`appendPathFromRoot` applies the existence policy to exactly one candidate per
visited directory and never exceeds its recursion bound; started at a root the
walk visits the root alone and makes the one call of `appendIfFile`. Every
visited directory but the starting path is a clean path, and when the
configuration name is a valid segment their candidates are pairwise distinct;
when the starting path is clean as well, all candidates are pairwise distinct
and the candidate of the root is built exactly once. -/
theorem path_walk_terminates (o : Options) (files : Slice) (path : String) :
    walkDepth path ≤ path.length + 1 ∧
    filepath.Dir (filepath.Dir^[walkDepth path] path) = filepath.Dir^[walkDepth path] path ∧
    (∀ i, i < walkDepth path → filepath.Dir (filepath.Dir^[i] path) ≠ filepath.Dir^[i] path) ∧
    walk path =
      ((List.range (walkDepth path + 1)).map (fun i => filepath.Dir^[i] path)).reverse ∧
    (walk path).head? = some (filepath.Dir^[walkDepth path] path) ∧
    (walk path).Nodup ∧
    (walk path).count (filepath.Dir^[walkDepth path] path) = 1 ∧
    o.appendPathFromRoot files path =
      o.appendAll files ((walk path).map (fun d => filepath.Join [d, o.configNameInPath])) ∧
    o.appendPathFromRoot files path ≠ Except.error Panic.stackOverflow ∧
    (filepath.Dir path = path →
      walk path = [path] ∧
      o.appendPathFromRoot files path =
        o.appendIfFile files (filepath.Join [path, o.configNameInPath])) ∧
    (∀ d ∈ (walk path).dropLast, filepath.Clean d = d) ∧
    (isSegment o.configNameInPath = true →
      (((walk path).dropLast).map (fun d => filepath.Join [d, o.configNameInPath])).Nodup ∧
      (filepath.Clean path = path →
        ((walk path).map (fun d => filepath.Join [d, o.configNameInPath])).Nodup ∧
        ((walk path).map (fun d => filepath.Join [d, o.configNameInPath])).count
          (filepath.Join [filepath.Dir^[walkDepth path] path, o.configNameInPath]) = 1)) := by
  obtain ⟨h1, h2, h3, h4⟩ := walk_chain (path.length + 1) path (walkMeasure_le path)
  have hhead : (walk path).head? = some (filepath.Dir^[walkDepth path] path) := by
    rw [h4, List.range_succ, List.map_append, List.reverse_append]
    simp
  have hdrop : ∀ d ∈ (walk path).dropLast, filepath.Clean d = d := by
    intro d hd
    rw [walk_dropLast] at hd
    by_cases hq : filepath.Dir path = path
    · simp [hq] at hd
    · rw [if_neg hq] at hd
      exact walk_clean _ (Clean_Dir path) d hd
  refine ⟨h1, h2, h3, h4, hhead, walk_nodup path, ?_, appendPathFromRoot_eq o files path, ?_, ?_,
    hdrop, ?_⟩
  · have hc := count_root_chain (fun i => filepath.Dir^[i] path) (walkDepth path) h2 h3
    rw [h4]
    exact hc
  · rw [appendPathFromRoot_eq]
    exact appendAll_ne_stackOverflow o files _
  · intro hd
    refine ⟨walk_fixed path hd, ?_⟩
    rw [appendPathFromRoot_eq, walk_fixed path hd]
    exact appendAll_singleton o files _
  · intro hn
    refine ⟨?_, fun hp => ?_⟩
    · rw [walk_dropLast]
      by_cases hq : filepath.Dir path = path
      · simp [hq]
      · rw [if_neg hq]
        exact walk_candidates_nodup _ _ (Clean_Dir path) hn
    · have hnd := walk_candidates_nodup path o.configNameInPath hp hn
      refine ⟨hnd, List.count_eq_one_of_mem hnd ?_⟩
      exact List.mem_map.mpr ⟨_, List.mem_of_mem_head? hhead, rfl⟩

/-- C11, amended, at the root `/` and at `/a/b/c` with the configuration name
`.app`: the walk from the root visits the root alone; the walk from `/a/b/c`
takes three steps, and its four candidates are pairwise distinct, the
candidate `/.app` of the root among them once. -/
theorem path_walk_terminates_witness :
    filepath.Dir "/" = "/" ∧
    walk "/" = ["/"] ∧
    walkDepth "/a/b/c" = 3 ∧
    walk "/a/b/c" = ["/", "/a", "/a/b", "/a/b/c"] ∧
    isSegment (New "/" sampleStat "app").configNameInPath = true ∧
    filepath.Clean "/a/b/c" = "/a/b/c" ∧
    (walk "/a/b/c").map (fun d => filepath.Join [d, (New "/" sampleStat "app").configNameInPath]) =
      ["/.app", "/a/.app", "/a/b/.app", "/a/b/c/.app"] ∧
    ((walk "/a/b/c").map
      (fun d => filepath.Join [d, (New "/" sampleStat "app").configNameInPath])).Nodup ∧
    ((walk "/a/b/c").map
      (fun d => filepath.Join [d, (New "/" sampleStat "app").configNameInPath])).count
        (filepath.Join [filepath.Dir^[walkDepth "/a/b/c"] "/a/b/c",
          (New "/" sampleStat "app").configNameInPath]) = 1 :=
  ⟨by decide,
    ((path_walk_terminates (New "/" sampleStat "app") none "/").2.2.2.2.2.2.2.2.2.1
      (by decide)).1,
    by decide, by decide, by decide, by decide, by decide,
    (((path_walk_terminates (New "/" sampleStat "app") none "/a/b/c").2.2.2.2.2.2.2.2.2.2.2
      (by decide)).2 (by decide)).1,
    (((path_walk_terminates (New "/" sampleStat "app") none "/a/b/c").2.2.2.2.2.2.2.2.2.2.2
      (by decide)).2 (by decide)).2⟩

/-- C12: for every application name `A`, `New(A)` yields an enumerator with
`appName = A`, `configName = A ++ ".conf"`, `configNameInPath = "." ++ A` and
`includeMissing = false` (and the filesystem `os.DirFS(root)`). -/
theorem New_defaults (root : String) (osStat : String → Except FsError FileInfo) (A : String) :
    (New root osStat A).appName = A ∧
    (New root osStat A).configName = A ++ ".conf" ∧
    (New root osStat A).configNameInPath = "." ++ A ∧
    (New root osStat A).includeMissing = false ∧
    (∃ fsys, (New root osStat A).fs = some fsys ∧ fsys.Stat = (os.DirFS osStat root).Stat) :=
  ⟨rfl, rfl, rfl, rfl, ⟨os.DirFS osStat root, rfl, rfl⟩⟩

/-- C13: each configuration setter sets exactly its own field to the given
argument and leaves every other field, `appName` included, unchanged; the
value it returns is the enumerator after the assignment, so a chain of setter
calls in any order yields the configuration that holds, for each field, the
last value given for it, and the initial value when none was given. -/
theorem setters_frame (o : Options) (n : String) (b : Bool) (f : Option FS)
    (setters : List Setter) :
    o.ConfigName n = ⟨o.appName, n, o.configNameInPath, o.includeMissing, o.fs⟩ ∧
    o.ConfigNameInPath n = ⟨o.appName, o.configName, n, o.includeMissing, o.fs⟩ ∧
    o.IncludeMissing b = ⟨o.appName, o.configName, o.configNameInPath, b, o.fs⟩ ∧
    o.FS f = ⟨o.appName, o.configName, o.configNameInPath, o.includeMissing, f⟩ ∧
    setters.foldl Setter.apply o =
      ⟨o.appName,
        (Setter.lastConfigName setters).getD o.configName,
        (Setter.lastConfigNameInPath setters).getD o.configNameInPath,
        (Setter.lastIncludeMissing setters).getD o.includeMissing,
        (Setter.lastFS setters).getD o.fs⟩ := by
  refine ⟨rfl, rfl, rfl, rfl, ?_⟩
  induction setters using List.reverseRecOn with
  | nil => rfl
  | append_singleton l s ih =>
    rw [List.foldl_append, ih]
    cases s <;>
      simp [Setter.apply, Options.ConfigName, Options.ConfigNameInPath, Options.IncludeMissing,
        Options.FS, Setter.lastConfigName, Setter.lastConfigNameInPath,
        Setter.lastIncludeMissing, Setter.lastFS, List.findSome?_cons]

/-- C14: the two file-name overrides are independent. `ConfigName(n)` leaves
the result of `EnumeratePath()` unchanged and makes `EnumerateSystem()` and
`EnumerateUser()` apply the existence policy to the candidates whose final
element is `n`; `ConfigNameInPath(n)` leaves the results of `EnumerateSystem()`
and `EnumerateUser()` unchanged and makes `EnumeratePath()` apply the policy
to the candidates with the name `n`. For a directory `/s1/.../sk` of valid
segments and valid segments as names these candidates are literally
`/s1/.../sk/appName/n` and `/s1/.../sk/n`. -/
theorem overrides_independent (o : Options) (env : Env) (n : String) :
    ((o.ConfigName n).EnumeratePath env = o.EnumeratePath env ∧
      (o.ConfigName n).EnumerateSystem env =
        o.appendAll none (env.systemConfigs.map (fun s => filepath.Join [s, o.appName, n])) ∧
      (o.ConfigName n).EnumerateUser env =
        o.appendAll none
          (match env.UserConfigDir with
          | none => []
          | some d => [filepath.Join [d, o.appName, n]])) ∧
    ((o.ConfigNameInPath n).EnumerateSystem env = o.EnumerateSystem env ∧
      (o.ConfigNameInPath n).EnumerateUser env = o.EnumerateUser env ∧
      (o.ConfigNameInPath n).EnumeratePath env =
        o.appendAll none
          (match env.Getwd with
          | none => []
          | some wd => (walk wd).map (fun d => filepath.Join [d, n]))) ∧
    (∀ segs : List String, (∀ s ∈ segs, isSegment s = true) → isSegment n = true →
      (segs ≠ [] → isSegment o.appName = true →
        filepath.Join [absPath segs, o.appName, n] =
          absPath segs ++ "/" ++ o.appName ++ "/" ++ n) ∧
      filepath.Join [absPath segs, n] = fileIn segs n) := by
  simp only [EnumerateSystem_eq, EnumerateUser_eq, EnumeratePath_eq]
  refine ⟨⟨?_, ?_, ?_⟩, ⟨?_, ?_, ?_⟩, fun segs hs hn => ⟨fun hne ha => ?_, ?_⟩⟩
  · exact appendAll_congr (o.ConfigName n) o rfl rfl none _
  · exact appendAll_congr (o.ConfigName n) o rfl rfl none _
  · exact appendAll_congr (o.ConfigName n) o rfl rfl none _
  · exact appendAll_congr (o.ConfigNameInPath n) o rfl rfl none _
  · exact appendAll_congr (o.ConfigNameInPath n) o rfl rfl none _
  · exact appendAll_congr (o.ConfigNameInPath n) o rfl rfl none _
  · exact Join_absPath_three segs hne hs _ _ ha hn
  · exact Join_absPath segs hs n hn

/-- C14 on the sample system with the overrides `my.conf` and `.my`. -/
theorem overrides_independent_witness :
    (∀ s ∈ ["etc", "xdg"], isSegment s = true) ∧ isSegment "my.conf" = true ∧
    isSegment (New "/" sampleStat "app").appName = true ∧
    filepath.Join [absPath ["etc", "xdg"], (New "/" sampleStat "app").appName, "my.conf"] =
      absPath ["etc", "xdg"] ++ "/" ++ (New "/" sampleStat "app").appName ++ "/" ++ "my.conf" ∧
    Slice.toList <$> (((New "/" sampleStat "app").IncludeMissing true).ConfigName
      "my.conf").EnumerateSystem sampleEnv =
      Except.ok ["/etc/app/my.conf", "/etc/xdg/app/my.conf"] ∧
    (((New "/" sampleStat "app").IncludeMissing true).ConfigName "my.conf").EnumeratePath
      sampleEnv = ((New "/" sampleStat "app").IncludeMissing true).EnumeratePath sampleEnv ∧
    Slice.toList <$> (((New "/" sampleStat "app").IncludeMissing true).ConfigNameInPath
      ".my").EnumeratePath sampleEnv =
      Except.ok ["/.my", "/a/.my", "/a/b/.my", "/a/b/c/.my"] :=
  ⟨by decide, by decide, by decide,
    ((overrides_independent (New "/" sampleStat "app") sampleEnv "my.conf").2.2
      ["etc", "xdg"] (by decide) (by decide)).1 (by decide) (by decide),
    by decide,
    (overrides_independent ((New "/" sampleStat "app").IncludeMissing true) sampleEnv
      "my.conf").1.1,
    by decide⟩

/-- C15 as stated fails: on the sample filesystem no candidate of the bare
environment exists, and every query operation returns the nil slice, not a
non-nil empty one. -/
theorem nothing_found_is_nil :
    ((New "/" sampleStat "app").FS (some sampleFS)).includeMissing = false ∧
    ((New "/" sampleStat "app").FS (some sampleFS)).candidates bareEnv =
      ["/opt/app/app.conf", "/root/.config/app/app.conf", "/.app", "/tmp/.app"] ∧
    ((New "/" sampleStat "app").FS (some sampleFS)).EnumerateSystem bareEnv = Except.ok none ∧
    ((New "/" sampleStat "app").FS (some sampleFS)).EnumerateUser bareEnv = Except.ok none ∧
    ((New "/" sampleStat "app").FS (some sampleFS)).EnumeratePath bareEnv = Except.ok none ∧
    ((New "/" sampleStat "app").FS (some sampleFS)).Enumerate bareEnv = Except.ok none ∧
    (Except.ok none : Except Panic Slice) ≠ Except.ok (some []) := by
  decide

/-- C15, amended: when no candidate passes the existence policy (and the
probes return), `EnumerateSystem()`, `EnumerateUser()`, `EnumeratePath()` and
`Enumerate()` return an empty sequence, namely the nil slice. -/
theorem nothing_found_returns_nil (o : Options) (env : Env)
    (hp : ∀ c ∈ o.candidates env, o.probeReturns c = true)
    (h : ∀ c ∈ o.candidates env, o.admits c = false) :
    (o.EnumerateSystem env = Except.ok none ∧ o.EnumerateUser env = Except.ok none ∧
      o.EnumeratePath env = Except.ok none ∧ o.Enumerate env = Except.ok none) ∧
    Slice.toList none = [] := by
  rw [Enumerate_eq, EnumerateSystem_eq, EnumerateUser_eq, EnumeratePath_eq]
  refine ⟨⟨?_, ?_, ?_, ?_⟩, rfl⟩
  · exact appendAll_none_admitted o _
      (fun c hc => hp c (by simp [Options.candidates, hc]))
      (fun c hc => h c (by simp [Options.candidates, hc]))
  · exact appendAll_none_admitted o _
      (fun c hc => hp c (by simp [Options.candidates, hc]))
      (fun c hc => h c (by simp [Options.candidates, hc]))
  · exact appendAll_none_admitted o _
      (fun c hc => hp c (by simp [Options.candidates, hc]))
      (fun c hc => h c (by simp [Options.candidates, hc]))
  · exact appendAll_none_admitted o _ hp h

/-- C15, amended, on the sample filesystem and the bare environment. -/
theorem nothing_found_returns_nil_witness :
    (∀ c ∈ ((New "/" sampleStat "app").FS (some sampleFS)).candidates bareEnv,
      ((New "/" sampleStat "app").FS (some sampleFS)).probeReturns c = true) ∧
    (∀ c ∈ ((New "/" sampleStat "app").FS (some sampleFS)).candidates bareEnv,
      ((New "/" sampleStat "app").FS (some sampleFS)).admits c = false) ∧
    ((New "/" sampleStat "app").FS (some sampleFS)).Enumerate bareEnv = Except.ok none :=
  ⟨by decide, by decide,
    (nothing_found_returns_nil ((New "/" sampleStat "app").FS (some sampleFS)) bareEnv
      (by decide) (by decide)).1.2.2.2⟩

/-- C16: idempotence. With the receiver passed from call to call, a call of
any enumeration operation returns the result of the operation and leaves the
enumerator as it was; two calls in a row with the same filesystem and
environment return the identical list; and in any sequence of query calls with
no setter call in between every call returns what the operation yields on the
initial configuration, and the configuration after the last call is the
initial one. -/
theorem queries_idempotent (o : Options) (env : Env) (q : Query) (qs : List Query) :
    q.callS env o = (fun r => (r, o)) <$> q.eval o env ∧
    (q.callS env o >>= fun st1 =>
      q.callS env st1.2 >>= fun st2 =>
      Except.ok (st1.1, st2.1, st2.2)) = (fun r => (r, r, o)) <$> q.eval o env ∧
    runQueriesS env o qs = (fun rs => (rs, o)) <$> evalQueries env o qs := by
  refine ⟨callS_eq q env o, ?_, runQueriesS_eq env o qs⟩
  rw [callS_eq]
  cases h : q.eval o env with
  | error p => rfl
  | ok r =>
    simp only [map_ok, bind_ok, callS_eq, h]

/-- C17: for every configuration, environment and filesystem `fsys` that
answers the probes, the result of each query operation with
`includeMissing = false` is the result of the same operation with
`includeMissing = true` filtered, in order, by the predicate that the probe of
the path on `fsys` succeeds and does not report a directory; it is a
subsequence of that result. -/
theorem missing_false_filters_true (o : Options) (env : Env) (fsys : FS)
    (hf : o.fs = some fsys) (ha : ∀ c ∈ o.candidates env, fsys.answers c = true) :
    filteredBy fsys ((o.IncludeMissing false).EnumerateSystem env)
      ((o.IncludeMissing true).EnumerateSystem env) ∧
    filteredBy fsys ((o.IncludeMissing false).EnumerateUser env)
      ((o.IncludeMissing true).EnumerateUser env) ∧
    filteredBy fsys ((o.IncludeMissing false).EnumeratePath env)
      ((o.IncludeMissing true).EnumeratePath env) ∧
    filteredBy fsys ((o.IncludeMissing false).Enumerate env)
      ((o.IncludeMissing true).Enumerate env) := by
  simp only [Enumerate_eq, EnumerateSystem_eq, EnumerateUser_eq, EnumeratePath_eq]
  exact ⟨filteredBy_appendAll o fsys hf (o.systemCandidates env)
      (fun c hc => ha c (by simp [Options.candidates, hc])),
    filteredBy_appendAll o fsys hf (o.userCandidates env)
      (fun c hc => ha c (by simp [Options.candidates, hc])),
    filteredBy_appendAll o fsys hf (o.pathCandidates env)
      (fun c hc => ha c (by simp [Options.candidates, hc])),
    filteredBy_appendAll o fsys hf (o.candidates env) ha⟩

/-- C17 on the sample system: of the seven candidates the two regular files
and the named pipe remain. -/
theorem missing_false_filters_true_witness :
    ((New "/" sampleStat "app").FS (some sampleFS)).fs = some sampleFS ∧
    (∀ c ∈ ((New "/" sampleStat "app").FS (some sampleFS)).candidates sampleEnv,
      sampleFS.answers c = true) ∧
    filteredBy sampleFS
      ((((New "/" sampleStat "app").FS (some sampleFS)).IncludeMissing false).Enumerate sampleEnv)
      ((((New "/" sampleStat "app").FS (some sampleFS)).IncludeMissing true).Enumerate sampleEnv) ∧
    (((New "/" sampleStat "app").FS (some sampleFS)).IncludeMissing false).Enumerate sampleEnv =
      Except.ok (some ["/etc/app/app.conf", "/home/u/.config/app/app.conf", "/a/.app"]) ∧
    (((New "/" sampleStat "app").FS (some sampleFS)).IncludeMissing true).Enumerate sampleEnv =
      Except.ok (some ["/etc/app/app.conf", "/etc/xdg/app/app.conf",
        "/home/u/.config/app/app.conf", "/.app", "/a/.app", "/a/b/.app", "/a/b/c/.app"]) :=
  ⟨rfl, by decide,
    (missing_false_filters_true ((New "/" sampleStat "app").FS (some sampleFS)) sampleEnv
      sampleFS rfl (by decide)).2.2.2, by decide, by decide⟩

/-- C18: every append helper only extends its accumulator. For every list
`files`, the elements of `appendSystem(files)`, `appendUser(files)`,
`appendPath(files)` and `appendPathFromRoot(files, path)` are those of `files`
followed by the elements the same helper yields on the nil list, and the
helper panics on `files` exactly when it panics on the nil list. -/
theorem append_helpers_extend (o : Options) (env : Env) (files : Slice) (path : String) :
    Slice.toList <$> o.appendSystem env files =
      (fun l => files.toList ++ l) <$> (Slice.toList <$> o.appendSystem env none) ∧
    Slice.toList <$> o.appendUser env files =
      (fun l => files.toList ++ l) <$> (Slice.toList <$> o.appendUser env none) ∧
    Slice.toList <$> o.appendPath env files =
      (fun l => files.toList ++ l) <$> (Slice.toList <$> o.appendPath env none) ∧
    Slice.toList <$> o.appendPathFromRoot files path =
      (fun l => files.toList ++ l) <$> (Slice.toList <$> o.appendPathFromRoot none path) := by
  simp only [appendSystem_eq, appendUser_eq, appendPath_eq, appendPathFromRoot_eq]
  exact ⟨toList_appendAll o files _, toList_appendAll o files _, toList_appendAll o files _,
    toList_appendAll o files _⟩

end Enumconf
